import Mathlib

/-!
Verification of the LSEQ sequence-CRDT engine of CollabCore.

The development shallowly embeds, from the source:
  * the canonical comparison (`compareArrays`, `comparePositions`),
  * the positional-identifier allocator (`generateIdentifierBetween`),
  * the engine operations (`remoteInsert`, `remoteDelete`,
    `batchRemoteDelete`, `remoteFormat`, `localInsert`, `localDelete`,
    `localBatchDelete`, `localFormat`, `loadState`),
  * the editor-side undo machinery (`applyToSelection`, `handleUndo`).

JavaScript arrays of numbers holding positional identifiers are modelled
as `List Nat` (the spec's data model: sequences of non-negative
integers); JavaScript strings as Lean `String`; `undefined`/`null` as
`Option`.  While-loops with an index are modelled by structural
recursion, with an explicit fuel argument where the source bounds the
loop by a counter (the allocator's depth cap) or where the loop is a
binary search (fuel at least the interval width, which the source's
termination argument also relies on).
-/

namespace CollabCore

/-- Comparison of two naturals yielding an `Ordering`, exactly the
`val1 < val2 → -1, val1 > val2 → 1, else 0` steps of `compareArrays`. -/
def natCmp (a b : Nat) : Ordering :=
  if a < b then .lt else if b < a then .gt else .eq

/-- Lexicographic comparison of lists given a comparison on elements;
on exhaustion the shorter list sorts first.  This is the recursive form
of the source's `compareArrays` loop (compare component-wise up to the
common length, then compare lengths). -/
def lexCmp (c : α → α → Ordering) : List α → List α → Ordering
  | [], [] => .eq
  | [], _ :: _ => .lt
  | _ :: _, [] => .gt
  | a :: as, b :: bs =>
    match c a b with
    | .eq => lexCmp c as bs
    | o => o

/-- `compareArrays` from the source: lexicographic comparison of
positional identifiers, shorter strict prefix first. -/
def compareArrays : List Nat → List Nat → Ordering :=
  lexCmp natCmp

/-- Character codes compared numerically; the model of JavaScript's
`localeCompare` on site identifiers (code-unit order). -/
def charCmp (a b : Char) : Ordering :=
  natCmp a.toNat b.toNat

/-- String comparison, the model of `localeCompare`. -/
def strCmp (a b : String) : Ordering :=
  lexCmp charCmp a.data b.data

/-- Comparison on a (positional identifier, site identifier) key:
identifier first, site identifier as tie-break — the body shared by
`comparePositions` and the key comparison inside `remoteDelete`. -/
def posSiteCmp (p1 : List Nat) (s1 : String) (p2 : List Nat) (s2 : String) : Ordering :=
  match compareArrays p1 p2 with
  | .eq => strCmp s1 s2
  | o => o

/-! ## Data model -/

/-- `CRDTAttributes` from `types.ts`: every field optional. -/
structure CRDTAttributes where
  bold : Option Bool := none
  italic : Option Bool := none
  underline : Option Bool := none
  fontSize : Option String := none
  fontFamily : Option String := none
deriving DecidableEq, Repr

/-- The empty attribute object. -/
def emptyAttrs : CRDTAttributes := {}

/-- `CRDTChar` from `types.ts`. -/
structure CRDTChar where
  value : String
  position : List Nat
  siteId : String
  attributes : Option CRDTAttributes := none
deriving DecidableEq, Repr

/-- Placeholder used as the default of `List.getD`; never reached when
indices are in bounds. -/
def dummyChar : CRDTChar := ⟨"", [], "", none⟩

/-- `comparePositions` from the source: identifier then site identifier. -/
def comparePositions (a b : CRDTChar) : Ordering :=
  posSiteCmp a.position a.siteId b.position b.siteId

/-- The (identifier, site) key of an element. -/
def keyOf (c : CRDTChar) : List Nat × String :=
  (c.position, c.siteId)

/-! ## Basic properties of the comparisons -/

theorem natCmp_eq_iff {a b : Nat} : natCmp a b = .eq ↔ a = b := by
  unfold natCmp; split <;> [skip; split] <;> simp <;> omega

theorem natCmp_lt_iff {a b : Nat} : natCmp a b = .lt ↔ a < b := by
  unfold natCmp; split <;> [skip; split] <;> simp <;> omega

theorem natCmp_gt_iff {a b : Nat} : natCmp a b = .gt ↔ b < a := by
  unfold natCmp; split <;> [skip; split] <;> simp <;> omega

theorem natCmp_swap (a b : Nat) : natCmp b a = (natCmp a b).swap := by
  unfold natCmp
  rcases Nat.lt_trichotomy a b with h | h | h <;>
    simp_all [Ordering.swap, Nat.lt_asymm, Nat.lt_irrefl]

theorem charCmp_eq_iff {a b : Char} : charCmp a b = .eq ↔ a = b := by
  unfold charCmp
  rw [natCmp_eq_iff]
  constructor
  · intro h
    exact Char.eq_of_val_eq (UInt32.ext h)
  · intro h; rw [h]

theorem charCmp_lt_trans {a b d : Char} (h1 : charCmp a b = .lt) (h2 : charCmp b d = .lt) :
    charCmp a d = .lt := by
  unfold charCmp at *
  rw [natCmp_lt_iff] at *
  omega

theorem charCmp_swap (a b : Char) : charCmp b a = (charCmp a b).swap := by
  unfold charCmp; exact natCmp_swap _ _

section LexProps

variable {α : Type} {c : α → α → Ordering}

theorem lexCmp_eq_iff (hc : ∀ a b : α, c a b = .eq ↔ a = b) :
    ∀ {l1 l2 : List α}, lexCmp c l1 l2 = .eq ↔ l1 = l2 := by
  intro l1
  induction l1 with
  | nil => intro l2; cases l2 <;> simp [lexCmp]
  | cons a as ih =>
    intro l2
    cases l2 with
    | nil => simp [lexCmp]
    | cons b bs =>
      simp only [lexCmp]
      rcases h : c a b with _ | _ | _
      · constructor
        · intro h'; simp at h'
        · intro h'
          rw [List.cons.injEq] at h'
          rw [h'.1, (hc b b).mpr rfl] at h
          simp at h
      · have hab : a = b := (hc a b).mp h
        subst hab
        rw [ih]
        simp
      · constructor
        · intro h'; simp at h'
        · intro h'
          rw [List.cons.injEq] at h'
          rw [h'.1, (hc b b).mpr rfl] at h
          simp at h

theorem lexCmp_swap (hsw : ∀ a b : α, c b a = (c a b).swap) :
    ∀ (l1 l2 : List α), lexCmp c l2 l1 = (lexCmp c l1 l2).swap := by
  intro l1
  induction l1 with
  | nil => intro l2; cases l2 <;> simp [lexCmp, Ordering.swap]
  | cons a as ih =>
    intro l2
    cases l2 with
    | nil => simp [lexCmp, Ordering.swap]
    | cons b bs =>
      simp only [lexCmp, hsw a b]
      rcases c a b with _ | _ | _ <;> simp [Ordering.swap, ih]

theorem lexCmp_lt_trans (hc : ∀ a b : α, c a b = .eq ↔ a = b)
    (ht : ∀ a b d : α, c a b = .lt → c b d = .lt → c a d = .lt) :
    ∀ {l1 l2 l3 : List α}, lexCmp c l1 l2 = .lt → lexCmp c l2 l3 = .lt →
      lexCmp c l1 l3 = .lt := by
  intro l1
  induction l1 with
  | nil =>
    intro l2 l3 h12 h23
    cases l2 with
    | nil => simp [lexCmp] at h12
    | cons b bs =>
      cases l3 with
      | nil => simp [lexCmp] at h23
      | cons d ds => simp [lexCmp]
  | cons a as ih =>
    intro l2 l3 h12 h23
    cases l2 with
    | nil => simp [lexCmp] at h12
    | cons b bs =>
      cases l3 with
      | nil => simp [lexCmp] at h23
      | cons d ds =>
        simp only [lexCmp] at h12 h23 ⊢
        rcases hab : c a b with _ | _ | _ <;> rw [hab] at h12 <;>
          rcases hbd : c b d with _ | _ | _ <;> rw [hbd] at h23
        · rw [ht a b d hab hbd]
        · have hx : b = d := (hc b d).mp hbd
          subst hx
          rw [hab]
        · exact absurd h23 (by simp)
        · have hx : a = b := (hc a b).mp hab
          subst hx
          rw [hbd]
        · have hx : a = b := (hc a b).mp hab
          have hy : b = d := (hc b d).mp hbd
          subst hx; subst hy
          rw [(hc a a).mpr rfl]
          exact ih h12 h23
        · exact absurd h23 (by simp)
        · exact absurd h12 (by simp)
        · exact absurd h12 (by simp)
        · exact absurd h12 (by simp)

end LexProps

theorem compareArrays_eq_iff {p q : List Nat} : compareArrays p q = .eq ↔ p = q :=
  lexCmp_eq_iff (fun _ _ => natCmp_eq_iff)

theorem compareArrays_swap (p q : List Nat) :
    compareArrays q p = (compareArrays p q).swap :=
  lexCmp_swap natCmp_swap p q

theorem compareArrays_lt_trans {p q r : List Nat}
    (h1 : compareArrays p q = .lt) (h2 : compareArrays q r = .lt) :
    compareArrays p r = .lt :=
  lexCmp_lt_trans (fun _ _ => natCmp_eq_iff)
    (fun _ _ _ ha hb => by rw [natCmp_lt_iff] at *; omega) h1 h2

theorem strCmp_eq_iff {s t : String} : strCmp s t = .eq ↔ s = t := by
  unfold strCmp
  rw [lexCmp_eq_iff (fun _ _ => charCmp_eq_iff)]
  cases s; cases t
  constructor
  · intro h; exact congrArg String.mk h
  · intro h; injection h

theorem strCmp_swap (s t : String) : strCmp t s = (strCmp s t).swap :=
  lexCmp_swap charCmp_swap s.data t.data

theorem strCmp_lt_trans {s t u : String} (h1 : strCmp s t = .lt) (h2 : strCmp t u = .lt) :
    strCmp s u = .lt :=
  lexCmp_lt_trans (fun _ _ => charCmp_eq_iff) (fun _ _ _ => charCmp_lt_trans) h1 h2

theorem posSiteCmp_eq_iff {p1 p2 : List Nat} {s1 s2 : String} :
    posSiteCmp p1 s1 p2 s2 = .eq ↔ p1 = p2 ∧ s1 = s2 := by
  unfold posSiteCmp
  rcases h : compareArrays p1 p2 with _ | _ | _
  · simp only []
    constructor
    · intro h'; simp at h'
    · rintro ⟨rfl, rfl⟩
      rw [compareArrays_eq_iff.mpr rfl] at h; simp at h
  · rw [strCmp_eq_iff]
    have := compareArrays_eq_iff.mp h
    simp [this]
  · simp only []
    constructor
    · intro h'; simp at h'
    · rintro ⟨rfl, rfl⟩
      rw [compareArrays_eq_iff.mpr rfl] at h; simp at h

theorem posSiteCmp_swap (p1 : List Nat) (s1 : String) (p2 : List Nat) (s2 : String) :
    posSiteCmp p2 s2 p1 s1 = (posSiteCmp p1 s1 p2 s2).swap := by
  unfold posSiteCmp
  rw [compareArrays_swap p1 p2]
  rcases compareArrays p1 p2 with _ | _ | _ <;>
    simp [Ordering.swap, strCmp_swap s1 s2]

theorem posSiteCmp_lt_trans {p1 p2 p3 : List Nat} {s1 s2 s3 : String}
    (h1 : posSiteCmp p1 s1 p2 s2 = .lt) (h2 : posSiteCmp p2 s2 p3 s3 = .lt) :
    posSiteCmp p1 s1 p3 s3 = .lt := by
  unfold posSiteCmp at *
  rcases ha : compareArrays p1 p2 with _ | _ | _ <;> rw [ha] at h1 <;>
    rcases hb : compareArrays p2 p3 with _ | _ | _ <;> rw [hb] at h2 <;>
      try simp_all
  · rw [compareArrays_lt_trans ha hb]
  · have hx : p2 = p3 := compareArrays_eq_iff.mp hb
    subst hx
    rw [ha]
  · have hx : p1 = p2 := compareArrays_eq_iff.mp ha
    subst hx
    rw [hb]
  · have hx : p1 = p2 := compareArrays_eq_iff.mp ha
    subst hx
    rw [hb]
    exact strCmp_lt_trans h1 h2

/-! Corollaries phrased on `comparePositions`. -/

theorem cp_eq_iff {a b : CRDTChar} : comparePositions a b = .eq ↔ keyOf a = keyOf b := by
  unfold comparePositions keyOf
  rw [posSiteCmp_eq_iff]
  simp [Prod.ext_iff]

theorem cp_swap (a b : CRDTChar) : comparePositions b a = (comparePositions a b).swap :=
  posSiteCmp_swap ..

theorem cp_lt_trans {a b d : CRDTChar} (h1 : comparePositions a b = .lt)
    (h2 : comparePositions b d = .lt) : comparePositions a d = .lt :=
  posSiteCmp_lt_trans h1 h2

theorem cp_refl (a : CRDTChar) : comparePositions a a = .eq :=
  cp_eq_iff.mpr rfl

theorem cp_lt_iff_gt {a b : CRDTChar} :
    comparePositions a b = .lt ↔ comparePositions b a = .gt := by
  rw [cp_swap b a]
  cases h : comparePositions b a <;> simp [Ordering.swap]

theorem cp_gt_iff_lt {a b : CRDTChar} :
    comparePositions a b = .gt ↔ comparePositions b a = .lt := by
  rw [cp_swap b a]
  cases h : comparePositions b a <;> simp [Ordering.swap]

/-- The comparison only looks at the key. -/
theorem cp_congr_left {a b : CRDTChar} (h : keyOf a = keyOf b) (x : CRDTChar) :
    comparePositions a x = comparePositions b x := by
  unfold comparePositions
  unfold keyOf at h
  have h1 : a.position = b.position := congrArg Prod.fst h
  have h2 : a.siteId = b.siteId := congrArg Prod.snd h
  rw [h1, h2]

theorem cp_congr_right {a b : CRDTChar} (h : keyOf a = keyOf b) (x : CRDTChar) :
    comparePositions x a = comparePositions x b := by
  unfold comparePositions
  unfold keyOf at h
  have h1 : a.position = b.position := congrArg Prod.fst h
  have h2 : a.siteId = b.siteId := congrArg Prod.snd h
  rw [h1, h2]

/-- Not-greater followed by strictly-less is strictly-less. -/
theorem cp_le_lt_trans {a b e : CRDTChar} (h1 : comparePositions a b ≠ .gt)
    (h2 : comparePositions b e = .lt) : comparePositions a e = .lt := by
  rcases h : comparePositions a b with _ | _ | _
  · exact cp_lt_trans h h2
  · rw [cp_congr_left (cp_eq_iff.mp h) e]; exact h2
  · exact absurd h h1

/-- Strictly-less followed by not-greater is strictly-less. -/
theorem cp_lt_le_trans {a b e : CRDTChar} (h1 : comparePositions a b = .lt)
    (h2 : comparePositions b e ≠ .gt) : comparePositions a e = .lt := by
  rcases h : comparePositions b e with _ | _ | _
  · exact cp_lt_trans h1 h
  · rw [← cp_congr_right (cp_eq_iff.mp h) a]; exact h1
  · exact absurd h h2

/-! ## The positional-identifier allocator -/

/-- One descent level of `generateIdentifierBetween`.  `v1` defaults a
missing component of the lower bound to `0`, `v2` one of the upper
bound to the base `1024`; a gap wider than `1` emits the midpoint
`v1 + ceil(diff / 2)`; otherwise the level is copied and the walk goes
one level deeper.  `fuel` counts the levels left before the source's
depth cap (`i > 128`), which pushes `v1 + 1` after the copied level. -/
def genLoop : List Nat → List Nat → Nat → List Nat
  | pos1, pos2, fuel =>
    let v1 := pos1.headD 0
    let v2 := pos2.headD 1024
    if 1 < v2 - v1 then [v1 + (v2 - v1 + 1) / 2]
    else
      match fuel with
      | 0 => [v1, v1 + 1]
      | f + 1 => v1 :: genLoop pos1.tail pos2.tail f

/-- `generateIdentifierBetween` from the source (cap at depth 128). -/
def generateIdentifierBetween (pos1 pos2 : List Nat) : List Nat :=
  genLoop pos1 pos2 128

/-! ## remoteInsert -/

/-- The binary-search loop of `remoteInsert`: bisection of `[low, high)`
by `comparePositions`; `none` models the duplicate branch (bare
`return`), `some low` the final insertion index.  Iteration is driven
by `fuel`; any fuel at least `high - low` reproduces the source loop
(which terminates within that many steps because the interval shrinks
every iteration), and the operation is invoked with `fuel = length`. -/
def bsIns (s : List CRDTChar) (e : CRDTChar) : Nat → Nat → Nat → Option Nat
  | 0, low, _ => some low
  | fuel + 1, low, high =>
    if low < high then
      let mid := (low + high) / 2
      match comparePositions (s.getD mid dummyChar) e with
      | .lt => bsIns s e fuel (mid + 1) high
      | .gt => bsIns s e fuel low mid
      | .eq => none
    else some low

/-- `remoteInsert` from the source: binary search, ignore on duplicate
key, else splice at the found index and return it. -/
def remoteInsert (s : List CRDTChar) (e : CRDTChar) : List CRDTChar × Option Nat :=
  match bsIns s e s.length 0 s.length with
  | none => (s, none)
  | some low => (s.take low ++ e :: s.drop low, some low)

/-- Reference insertion into a sorted list: walk past strictly smaller
elements, no-op at the first key-equal element, else place `e` in
front.  `remoteInsert` agrees with it on sorted states. -/
def sInsert (e : CRDTChar) : List CRDTChar → List CRDTChar
  | [] => [e]
  | x :: xs =>
    match comparePositions x e with
    | .lt => x :: sInsert e xs
    | .eq => x :: xs
    | .gt => e :: x :: xs

/-! ## remoteDelete -/

/-- The predicate of the linear fallback in `remoteDelete` and of the
lookup in `remoteFormat`: position compares equal and the site
identifier is equal. -/
def matchB (p : List Nat) (sid : String) (c : CRDTChar) : Bool :=
  compareArrays c.position p == .eq && c.siteId == sid

/-- `Array.prototype.findIndex` on a list. -/
def findIdxP (pred : α → Bool) : List α → Option Nat
  | [] => none
  | x :: l => if pred x then some 0 else (findIdxP pred l).map (· + 1)

/-- The binary-search loop of `remoteDelete`: `low ≤ high` bisection,
`high` starting at `length - 1` (so `-1`, an exited loop, on the empty
sequence); the key comparison is position first, then `localeCompare`
on the site identifier.  Returns the probed index on a key match.
Fuel as in `bsIns`. -/
def bsDel (s : List CRDTChar) (p : List Nat) (sid : String) :
    Nat → Nat → Int → Option Nat
  | 0, _, _ => none
  | fuel + 1, low, high =>
    if (low : Int) ≤ high then
      let mid := (low + high.toNat) / 2
      let c := s.getD mid dummyChar
      match posSiteCmp c.position c.siteId p sid with
      | .lt => bsDel s p sid fuel (mid + 1) high
      | .gt => bsDel s p sid fuel low ((mid : Int) - 1)
      | .eq => some mid
    else none

/-- `remoteDelete` from the source: binary search, then the linear
`findIndex` fallback; splice the match out and return its index, or
`-1` leaving the sequence untouched. -/
def remoteDelete (s : List CRDTChar) (p : List Nat) (sid : String) :
    List CRDTChar × Int :=
  match bsDel s p sid (s.length + 1) 0 ((s.length : Int) - 1) with
  | some mid => (s.eraseIdx mid, (mid : Int))
  | none =>
    match findIdxP (matchB p sid) s with
    | some idx => (s.eraseIdx idx, (idx : Int))
    | none => (s, -1)

/-! ## batchRemoteDelete and its string keys -/

/-- A delete descriptor (`position`, `siteId` of the element). -/
structure DelOp where
  position : List Nat
  siteId : String
deriving DecidableEq, Repr

/-- Decimal digit characters as JavaScript renders array numbers; only
applied to values below 10. -/
def digitChar : Nat → Char
  | 0 => '0'
  | 1 => '1'
  | 2 => '2'
  | 3 => '3'
  | 4 => '4'
  | 5 => '5'
  | 6 => '6'
  | 7 => '7'
  | 8 => '8'
  | _ => '9'

/-- Decimal rendering of a natural, most significant digit first
(fuel-driven; any `fuel > n` gives the full rendering). -/
def natReprAux : Nat → Nat → List Char
  | 0, _ => []
  | fuel + 1, n =>
    if n < 10 then [digitChar n]
    else natReprAux fuel (n / 10) ++ [digitChar (n % 10)]

/-- Decimal rendering of a natural number. -/
def natRepr (n : Nat) : List Char := natReprAux (n + 1) n

/-- `Array.prototype.join(',')` over rendered components. -/
def joinComma : List (List Char) → List Char
  | [] => []
  | [x] => x
  | x :: xs => x ++ ',' :: joinComma xs

/-- The deletion-set key `siteId:position.join(',')`, as its character
list (JavaScript string equality is character-list equality). -/
def deletionKey (sid : String) (p : List Nat) : List Char :=
  sid.data ++ ':' :: joinComma (p.map natRepr)

/-- `batchRemoteDelete` from the source: build the key set of the
descriptors, keep exactly the elements whose key is not in it (the
write-index compaction pass), and count the dropped ones. -/
def batchRemoteDelete (s : List CRDTChar) (ops : List DelOp) : List CRDTChar × Nat :=
  if ops = [] then (s, 0)
  else
    let deletionSet := ops.map (fun o => deletionKey o.siteId o.position)
    (s.filter (fun c => !(deletionSet.contains (deletionKey c.siteId c.position))),
     s.countP (fun c => deletionSet.contains (deletionKey c.siteId c.position)))

/-! ## Attribute merging and the format operations -/

/-- First-some choice: the effect of the later spread in an object
merge. -/
def oor (a b : Option α) : Option α :=
  match a with
  | some x => some x
  | none => b

/-- The shallow merge of a patch over existing attributes
(`spread old, spread patch`; absent attributes read as the empty
object). -/
def mergeAttrs (old : Option CRDTAttributes) (patch : CRDTAttributes) : CRDTAttributes :=
  let o := old.getD emptyAttrs
  ⟨oor patch.bold o.bold, oor patch.italic o.italic, oor patch.underline o.underline,
   oor patch.fontSize o.fontSize, oor patch.fontFamily o.fontFamily⟩

/-- `chars[i]` under a JavaScript (possibly negative or overflowing)
index: `undefined` outside `[0, length)`. -/
def getAt? (s : List CRDTChar) (i : Int) : Option CRDTChar :=
  if 0 ≤ i ∧ i.toNat < s.length then some (s.getD i.toNat dummyChar) else none

/-- `localFormat` from the source: merge into the indexed element,
report its key; `null` when the index is out of range. -/
def localFormat (s : List CRDTChar) (index : Int) (patch : CRDTAttributes) :
    List CRDTChar × Option (List Nat × String) :=
  match getAt? s index with
  | none => (s, none)
  | some c =>
    (s.set index.toNat { c with attributes := some (mergeAttrs c.attributes patch) },
     some (c.position, c.siteId))

/-- `remoteFormat` from the source: find the element by key and merge;
silently do nothing when it is absent. -/
def remoteFormat (s : List CRDTChar) (p : List Nat) (charSiteId : String)
    (patch : CRDTAttributes) : List CRDTChar :=
  match findIdxP (matchB p charSiteId) s with
  | none => s
  | some j =>
    let c := s.getD j dummyChar
    s.set j { c with attributes := some (mergeAttrs c.attributes patch) }

/-! ## Local insert and deletes -/

/-- `localInsert` from the source: neighbours default to the sentinels
`[0]` and `[100]` when the index misses the array; allocate between
them and hand the element to `remoteInsert`. -/
def localInsert (site : String) (s : List CRDTChar) (index : Int) (v : String)
    (attributes : Option CRDTAttributes) : List CRDTChar × CRDTChar :=
  let prev := ((getAt? s (index - 1)).map CRDTChar.position).getD [0]
  let next := ((getAt? s index).map CRDTChar.position).getD [100]
  let c : CRDTChar := ⟨v, generateIdentifierBetween prev next, site, attributes⟩
  ((remoteInsert s c).1, c)

/-- `localDelete` from the source: capture the indexed element's key,
delete through `remoteDelete`; `null` when out of range. -/
def localDelete (s : List CRDTChar) (index : Int) : List CRDTChar × Option DelOp :=
  match getAt? s index with
  | none => (s, none)
  | some c => ((remoteDelete s c.position c.siteId).1, some ⟨c.position, c.siteId⟩)

/-- `localBatchDelete` from the source: validate the range, capture the
contiguous block, splice it out in one go. -/
def localBatchDelete (s : List CRDTChar) (startIndex endIndex : Int) :
    List CRDTChar × List (CRDTChar × DelOp) :=
  if startIndex < 0 ∨ endIndex > (s.length : Int) ∨ startIndex ≥ endIndex then (s, [])
  else
    let a := startIndex.toNat
    let b := endIndex.toNat
    let removed := (s.drop a).take (b - a)
    (s.take a ++ s.drop b, removed.map (fun c => (c, ⟨c.position, c.siteId⟩)))

/-! ## loadState -/

/-- Stable insertion of `a` into a sorted list (existing elements stay
in front as long as insertion would reorder equals). -/
def orderedInsert (le : α → α → Bool) (a : α) : List α → List α
  | [] => [a]
  | b :: l => if le a b then a :: b :: l else b :: orderedInsert le a l

/-- Stable sort, the model of `Array.prototype.sort` under a consistent
comparator: ES2019 requires the sort to be stable, and a stable sort's
output is unique, so insertion sort is an exact model. -/
def stableSort (le : α → α → Bool) : List α → List α
  | [] => []
  | a :: l => orderedInsert le a (stableSort le l)

/-- The boolean `comparePositions a b ≤ 0` that drives the sort. -/
def cpLe (a b : CRDTChar) : Bool := comparePositions a b != .gt

/-- `loadState` from the source: replace the sequence by a (deep, and
in a value model identity) copy of the snapshot, re-sorted by the
canonical comparator. -/
def loadState (newState : List CRDTChar) : List CRDTChar :=
  stableSort cpLe newState

/-- The `state` accessor: a deep copy, which on pure values is the
sequence itself. -/
def stateGet (s : List CRDTChar) : List CRDTChar := s

/-- The `text` accessor: concatenation of the element values. -/
def textOf (s : List CRDTChar) : String :=
  String.join (s.map CRDTChar.value)

/-! ## Invariants -/

/-- The engine invariant: strictly sorted in the canonical order
(hence keys are pairwise distinct). -/
def Inv (s : List CRDTChar) : Prop :=
  s.Pairwise (fun a b => comparePositions a b = .lt)

/-- Sorted, allowing key ties. -/
def Sle (s : List CRDTChar) : Prop :=
  s.Pairwise (fun a b => comparePositions a b ≠ .gt)

/-- Keys pairwise distinct. -/
def KeyNodup (s : List CRDTChar) : Prop :=
  s.Pairwise (fun a b => comparePositions a b ≠ .eq)

/-- Some element with the key of `e` is present. -/
def hasKey (s : List CRDTChar) (e : CRDTChar) : Prop :=
  ∃ x ∈ s, comparePositions x e = .eq

instance (s : List CRDTChar) : Decidable (Inv s) := by
  unfold Inv; infer_instance

instance (s : List CRDTChar) : Decidable (Sle s) := by
  unfold Sle; infer_instance

instance (s : List CRDTChar) : Decidable (KeyNodup s) := by
  unfold KeyNodup; infer_instance

instance (s : List CRDTChar) (e : CRDTChar) : Decidable (hasKey s e) := by
  unfold hasKey; infer_instance

/-! ## Sorted-list helpers -/

theorem cp_le_trans {a b d : CRDTChar} (h1 : comparePositions a b ≠ .gt)
    (h2 : comparePositions b d ≠ .gt) : comparePositions a d ≠ .gt := by
  rcases h : comparePositions a b with _ | _ | _
  · rw [cp_lt_le_trans h h2]; simp
  · rw [cp_congr_left (cp_eq_iff.mp h) d]; exact h2
  · exact absurd h h1

theorem inv_sle {s : List CRDTChar} (h : Inv s) : Sle s :=
  h.imp (fun hx => by rw [hx]; simp)

theorem inv_keyNodup {s : List CRDTChar} (h : Inv s) : KeyNodup s :=
  h.imp (fun hx => by rw [hx]; simp)

theorem sle_getD {s : List CRDTChar} (h : Sle s) {i j : Nat} (hij : i < j)
    (hj : j < s.length) :
    comparePositions (s.getD i dummyChar) (s.getD j dummyChar) ≠ .gt := by
  have hi : i < s.length := lt_trans hij hj
  rw [List.getD_eq_getElem _ _ hi, List.getD_eq_getElem _ _ hj]
  exact List.pairwise_iff_getElem.mp h i j hi hj hij

theorem keyNodup_getD {s : List CRDTChar} (h : KeyNodup s) {i j : Nat} (hij : i < j)
    (hj : j < s.length) :
    comparePositions (s.getD i dummyChar) (s.getD j dummyChar) ≠ .eq := by
  have hi : i < s.length := lt_trans hij hj
  rw [List.getD_eq_getElem _ _ hi, List.getD_eq_getElem _ _ hj]
  exact List.pairwise_iff_getElem.mp h i j hi hj hij

theorem getD_mem {s : List CRDTChar} {i : Nat} (hi : i < s.length) :
    s.getD i dummyChar ∈ s := by
  rw [List.getD_eq_getElem _ _ hi]
  exact List.getElem_mem hi

/-! ## sInsert lemmas -/

theorem sInsert_mem_of {e y : CRDTChar} :
    ∀ {l : List CRDTChar}, y ∈ sInsert e l → y = e ∨ y ∈ l := by
  intro l
  induction l with
  | nil => intro h; simp [sInsert] at h; exact Or.inl h
  | cons x xs ih =>
    intro h
    unfold sInsert at h
    rcases hc : comparePositions x e with _ | _ | _ <;> rw [hc] at h
    · rcases List.mem_cons.mp h with h1 | h1
      · exact Or.inr (List.mem_cons.mpr (Or.inl h1))
      · rcases ih h1 with h2 | h2
        · exact Or.inl h2
        · exact Or.inr (List.mem_cons.mpr (Or.inr h2))
    · exact Or.inr h
    · rcases List.mem_cons.mp h with h1 | h1
      · exact Or.inl h1
      · exact Or.inr h1

theorem mem_sInsert_self {e : CRDTChar} :
    ∀ {l : List CRDTChar}, ¬hasKey l e → e ∈ sInsert e l := by
  intro l
  induction l with
  | nil => intro _; simp [sInsert]
  | cons x xs ih =>
    intro h
    unfold sInsert
    rcases hc : comparePositions x e with _ | _ | _
    · refine List.mem_cons.mpr (Or.inr (ih ?_))
      intro ⟨w, hw, hweq⟩
      exact h ⟨w, List.mem_cons.mpr (Or.inr hw), hweq⟩
    · exact absurd ⟨x, List.mem_cons.mpr (Or.inl rfl), hc⟩ h
    · exact List.mem_cons.mpr (Or.inl rfl)

theorem mem_sInsert_of_mem {e y : CRDTChar} :
    ∀ {l : List CRDTChar}, y ∈ l → y ∈ sInsert e l := by
  intro l
  induction l with
  | nil => intro h; simp at h
  | cons x xs ih =>
    intro h
    unfold sInsert
    rcases hc : comparePositions x e with _ | _ | _
    · rcases List.mem_cons.mp h with h1 | h1
      · exact List.mem_cons.mpr (Or.inl h1)
      · exact List.mem_cons.mpr (Or.inr (ih h1))
    · exact h
    · exact List.mem_cons.mpr (Or.inr h)

theorem sInsert_front {e : CRDTChar} :
    ∀ {l : List CRDTChar}, (∀ y ∈ l, comparePositions y e = .gt) →
      sInsert e l = e :: l := by
  intro l
  induction l with
  | nil => intro _; rfl
  | cons x xs _ =>
    intro h
    unfold sInsert
    rw [h x (List.mem_cons.mpr (Or.inl rfl))]

theorem sInsert_inv {e : CRDTChar} :
    ∀ {l : List CRDTChar}, Inv l → Inv (sInsert e l) := by
  intro l
  induction l with
  | nil => intro _; exact List.pairwise_cons.mpr ⟨by simp, List.Pairwise.nil⟩
  | cons x xs ih =>
    intro h
    have hx := List.pairwise_cons.mp h
    unfold sInsert
    rcases hc : comparePositions x e with _ | _ | _
    · refine List.pairwise_cons.mpr ⟨?_, ih hx.2⟩
      intro y hy
      rcases sInsert_mem_of hy with rfl | hy'
      · exact hc
      · exact hx.1 y hy'
    · exact h
    · refine List.pairwise_cons.mpr ⟨?_, h⟩
      intro y hy
      rcases List.mem_cons.mp hy with rfl | hy'
      · exact cp_gt_iff_lt.mp hc
      · exact cp_lt_trans (cp_gt_iff_lt.mp hc) (hx.1 y hy')

theorem sInsert_sle {e : CRDTChar} :
    ∀ {l : List CRDTChar}, Sle l → Sle (sInsert e l) := by
  intro l
  induction l with
  | nil => intro _; exact List.pairwise_cons.mpr ⟨by simp, List.Pairwise.nil⟩
  | cons x xs ih =>
    intro h
    have hx := List.pairwise_cons.mp h
    unfold sInsert
    rcases hc : comparePositions x e with _ | _ | _
    · refine List.pairwise_cons.mpr ⟨?_, ih hx.2⟩
      intro y hy
      rcases sInsert_mem_of hy with rfl | hy'
      · rw [hc]; simp
      · exact hx.1 y hy'
    · exact h
    · refine List.pairwise_cons.mpr ⟨?_, h⟩
      intro y hy
      rcases List.mem_cons.mp hy with rfl | hy'
      · rw [cp_gt_iff_lt.mp hc]; simp
      · rw [cp_lt_le_trans (cp_gt_iff_lt.mp hc) (hx.1 y hy')]
        simp

theorem sInsert_hasKey_eq {e : CRDTChar} :
    ∀ {l : List CRDTChar}, Sle l → hasKey l e → sInsert e l = l := by
  intro l
  induction l with
  | nil => intro _ h; obtain ⟨w, hw, _⟩ := h; simp at hw
  | cons x xs ih =>
    intro hs h
    have hx := List.pairwise_cons.mp hs
    obtain ⟨w, hw, hweq⟩ := h
    unfold sInsert
    rcases hc : comparePositions x e with _ | _ | _
    · rcases List.mem_cons.mp hw with rfl | hw'
      · rw [hweq] at hc; simp at hc
      · rw [ih hx.2 ⟨w, hw', hweq⟩]
    · rfl
    · exfalso
      rcases List.mem_cons.mp hw with rfl | hw'
      · rw [hweq] at hc; simp at hc
      · have h1 : comparePositions x w ≠ .gt := hx.1 w hw'
        rw [cp_congr_right (cp_eq_iff.mp hweq) x] at h1
        exact h1 hc

theorem sInsert_idem (e : CRDTChar) :
    ∀ (l : List CRDTChar), sInsert e (sInsert e l) = sInsert e l := by
  intro l
  induction l with
  | nil => simp [sInsert, cp_refl]
  | cons x xs ih =>
    rcases hc : comparePositions x e with _ | _ | _
    · simp [sInsert, hc, ih]
    · simp [sInsert, hc]
    · simp [sInsert, hc, cp_refl]

/-! ## Binary-search correctness for remoteInsert -/

theorem bsIns_succ (s : List CRDTChar) (e : CRDTChar) (f low high : Nat) :
    bsIns s e (f + 1) low high =
      if low < high then
        match comparePositions (s.getD ((low + high) / 2) dummyChar) e with
        | .lt => bsIns s e f ((low + high) / 2 + 1) high
        | .gt => bsIns s e f low ((low + high) / 2)
        | .eq => none
      else some low := rfl

/-- Full specification of the `remoteInsert` bisection on a sorted
state: `none` only when a key-equal element exists; `some k` partitions
the state into a strictly-smaller prefix and a strictly-greater
suffix. -/
theorem bsIns_spec {s : List CRDTChar} {e : CRDTChar} (hs : Sle s) :
    ∀ fuel low high, high - low ≤ fuel → low ≤ high → high ≤ s.length →
    (∀ i, i < low → comparePositions (s.getD i dummyChar) e = .lt) →
    (∀ i, high ≤ i → i < s.length → comparePositions (s.getD i dummyChar) e = .gt) →
    (bsIns s e fuel low high = none →
       ∃ i, i < s.length ∧ comparePositions (s.getD i dummyChar) e = .eq) ∧
    (∀ k, bsIns s e fuel low high = some k → k ≤ s.length ∧
       (∀ i, i < k → comparePositions (s.getD i dummyChar) e = .lt) ∧
       (∀ i, k ≤ i → i < s.length → comparePositions (s.getD i dummyChar) e = .gt)) := by
  intro fuel
  induction fuel with
  | zero =>
    intro low high hfuel hlh hhs hlow hhigh
    constructor
    · intro h; simp [bsIns] at h
    · intro k hk
      simp [bsIns] at hk
      subst hk
      refine ⟨by omega, hlow, ?_⟩
      intro i hi hil
      exact hhigh i (by omega) hil
  | succ f ih =>
    intro low high hfuel hlh hhs hlow hhigh
    rw [bsIns_succ]
    by_cases hcond : low < high
    · rw [if_pos hcond]
      have hmids : (low + high) / 2 < s.length := by omega
      rcases hc : comparePositions (s.getD ((low + high) / 2) dummyChar) e
          with _ | _ | _ <;> simp only [hc]
      · apply ih ((low + high) / 2 + 1) high (by omega) (by omega) hhs ?_ hhigh
        intro i hi
        rcases Nat.lt_or_ge i ((low + high) / 2) with h1 | h1
        · exact cp_le_lt_trans (sle_getD hs h1 hmids) hc
        · have hieq : i = (low + high) / 2 := by omega
          rw [hieq]; exact hc
      · constructor
        · intro _; exact ⟨(low + high) / 2, hmids, hc⟩
        · intro k hk; exact absurd hk (by simp)
      · apply ih low ((low + high) / 2) (by omega) (by omega) (by omega) hlow ?_
        intro i hi hil
        rcases Nat.lt_or_ge i high with h1 | h1
        · rcases Nat.eq_or_lt_of_le hi with h2 | h2
          · rw [← h2]; exact hc
          · exact cp_lt_iff_gt.mp (cp_lt_le_trans (cp_gt_iff_lt.mp hc) (sle_getD hs h2 hil))
        · exact hhigh i h1 hil
    · rw [if_neg hcond]
      constructor
      · intro h; simp at h
      · intro k hk
        simp only [Option.some.injEq] at hk
        subst hk
        refine ⟨by omega, hlow, ?_⟩
        intro i hi hil
        exact hhigh i (by omega) hil

/-- On a sorted state containing the key, `remoteInsert` is the no-op
branch. -/
theorem remoteInsert_hasKey {s : List CRDTChar} {e : CRDTChar} (hs : Sle s)
    (h : hasKey s e) : remoteInsert s e = (s, none) := by
  unfold remoteInsert
  rcases hb : bsIns s e s.length 0 s.length with _ | k
  · rfl
  · exfalso
    have hspec := (bsIns_spec hs s.length 0 s.length (by omega) (by omega) (le_refl _)
      (by intro i hi; omega) (by intro i hi hil; omega)).2 k hb
    obtain ⟨w, hw, hweq⟩ := h
    obtain ⟨iw, hiw, hwe⟩ := List.getElem_of_mem hw
    have hwd : s.getD iw dummyChar = w := by
      rw [List.getD_eq_getElem _ _ hiw]; exact hwe
    rcases Nat.lt_or_ge iw k with h1 | h1
    · have := hspec.2.1 iw h1
      rw [hwd, hweq] at this; simp at this
    · have := hspec.2.2 iw h1 hiw
      rw [hwd, hweq] at this; simp at this

/-- On a sorted state missing the key, `remoteInsert` splices at the
partition point. -/
theorem remoteInsert_not_hasKey {s : List CRDTChar} {e : CRDTChar} (hs : Sle s)
    (h : ¬hasKey s e) :
    ∃ k, k ≤ s.length ∧
      remoteInsert s e = (s.take k ++ e :: s.drop k, some k) ∧
      (∀ i, i < k → comparePositions (s.getD i dummyChar) e = .lt) ∧
      (∀ i, k ≤ i → i < s.length → comparePositions (s.getD i dummyChar) e = .gt) := by
  unfold remoteInsert
  rcases hb : bsIns s e s.length 0 s.length with _ | k
  · exfalso
    obtain ⟨i, hi, hieq⟩ := (bsIns_spec hs s.length 0 s.length (by omega) (by omega)
      (le_refl _) (by intro i hi; omega) (by intro i hi hil; omega)).1 hb
    exact h ⟨s.getD i dummyChar, getD_mem hi, hieq⟩
  · obtain ⟨hk, hlt, hgt⟩ := (bsIns_spec hs s.length 0 s.length (by omega) (by omega)
      (le_refl _) (by intro i hi; omega) (by intro i hi hil; omega)).2 k hb
    exact ⟨k, hk, rfl, hlt, hgt⟩

/-- The splice at the partition point is exactly the reference sorted
insertion. -/
theorem splice_eq_sInsert {e : CRDTChar} :
    ∀ (s : List CRDTChar) (k : Nat), k ≤ s.length →
    (∀ i, i < k → comparePositions (s.getD i dummyChar) e = .lt) →
    (∀ i, k ≤ i → i < s.length → comparePositions (s.getD i dummyChar) e = .gt) →
    s.take k ++ e :: s.drop k = sInsert e s := by
  intro s
  induction s with
  | nil =>
    intro k hk _ _
    have : k = 0 := by simpa using hk
    subst this
    rfl
  | cons x xs ih =>
    intro k hk hlt hgt
    cases k with
    | zero =>
      have hx : comparePositions x e = .gt := by
        have := hgt 0 (by omega) (by simp)
        simpa [List.getD_cons_zero] using this
      simp only [List.take_zero, List.drop_zero, List.nil_append]
      unfold sInsert
      rw [hx]
    | succ j =>
      have hx : comparePositions x e = .lt := by
        have := hlt 0 (by omega)
        simpa [List.getD_cons_zero] using this
      simp only [List.take_succ_cons, List.drop_succ_cons, List.cons_append]
      unfold sInsert
      rw [hx]
      congr 1
      apply ih j (by simpa using hk)
      · intro i hi
        have := hlt (i + 1) (by omega)
        simpa [List.getD_cons_succ] using this
      · intro i hi hil
        have := hgt (i + 1) (by omega) (by simpa using hil)
        simpa [List.getD_cons_succ] using this

/-- Bridge: on a sorted state, the state after `remoteInsert` is the
reference sorted insertion. -/
theorem remoteInsert_sorted_eq {s : List CRDTChar} {e : CRDTChar} (hs : Sle s) :
    (remoteInsert s e).1 = sInsert e s := by
  by_cases h : hasKey s e
  · rw [remoteInsert_hasKey hs h, sInsert_hasKey_eq hs h]
  · obtain ⟨k, hk, heq, hlt, hgt⟩ := remoteInsert_not_hasKey hs h
    rw [heq]
    exact splice_eq_sInsert s k hk hlt hgt

/-! ## Claim C4 -/

/-- Claim C4: on an engine state (a sequence sorted in the canonical
order, as every reachable sequence is), `remoteInsert` is idempotent:
applying it twice yields the same sequence as applying it once; if an
element with the identical (identifier, site) key is present the call
leaves the sequence unchanged (no-op), and otherwise the element is
spliced at the index found by binary search on the sort key, which is
returned. -/
theorem remoteInsert_idempotent_spec (s : List CRDTChar) (e : CRDTChar) (hs : Sle s) :
    (remoteInsert (remoteInsert s e).1 e).1 = (remoteInsert s e).1 ∧
    (hasKey s e → remoteInsert s e = (s, none)) ∧
    (¬hasKey s e → ∃ k, k ≤ s.length ∧
       remoteInsert s e = (s.take k ++ e :: s.drop k, some k)) := by
  refine ⟨?_, fun h => remoteInsert_hasKey hs h, fun h => ?_⟩
  · rw [remoteInsert_sorted_eq hs, remoteInsert_sorted_eq (sInsert_sle hs),
      sInsert_idem]
  · obtain ⟨k, hk, heq, _, _⟩ := remoteInsert_not_hasKey hs h
    exact ⟨k, hk, heq⟩

/-- Concrete witness for the C4 theorem: a two-element sorted state and
a fresh element. -/
theorem remoteInsert_idempotent_spec_witness :
    Sle [⟨"a", [10], "S", none⟩, ⟨"b", [20], "S", none⟩] ∧
    ((remoteInsert (remoteInsert [⟨"a", [10], "S", none⟩, ⟨"b", [20], "S", none⟩]
        ⟨"x", [15], "T", none⟩).1 ⟨"x", [15], "T", none⟩).1 =
      (remoteInsert [⟨"a", [10], "S", none⟩, ⟨"b", [20], "S", none⟩]
        ⟨"x", [15], "T", none⟩).1 ∧
     (hasKey [⟨"a", [10], "S", none⟩, ⟨"b", [20], "S", none⟩] ⟨"x", [15], "T", none⟩ →
       remoteInsert [⟨"a", [10], "S", none⟩, ⟨"b", [20], "S", none⟩]
         ⟨"x", [15], "T", none⟩ =
         ([⟨"a", [10], "S", none⟩, ⟨"b", [20], "S", none⟩], none)) ∧
     (¬hasKey [⟨"a", [10], "S", none⟩, ⟨"b", [20], "S", none⟩] ⟨"x", [15], "T", none⟩ →
       ∃ k, k ≤ ([⟨"a", [10], "S", none⟩, ⟨"b", [20], "S", none⟩] :
            List CRDTChar).length ∧
         remoteInsert [⟨"a", [10], "S", none⟩, ⟨"b", [20], "S", none⟩]
           ⟨"x", [15], "T", none⟩ =
           (([⟨"a", [10], "S", none⟩, ⟨"b", [20], "S", none⟩] :
              List CRDTChar).take k ++ ⟨"x", [15], "T", none⟩ ::
            ([⟨"a", [10], "S", none⟩, ⟨"b", [20], "S", none⟩] :
              List CRDTChar).drop k, some k))) :=
  ⟨by decide, remoteInsert_idempotent_spec _ _ (by decide)⟩

/-! ## remoteDelete correctness -/

theorem bsDel_succ (s : List CRDTChar) (p : List Nat) (sid : String)
    (f low : Nat) (high : Int) :
    bsDel s p sid (f + 1) low high =
      if (low : Int) ≤ high then
        match posSiteCmp (s.getD ((low + high.toNat) / 2) dummyChar).position
            (s.getD ((low + high.toNat) / 2) dummyChar).siteId p sid with
        | .lt => bsDel s p sid f ((low + high.toNat) / 2 + 1) high
        | .gt => bsDel s p sid f low ((((low + high.toNat) / 2 : Nat) : Int) - 1)
        | .eq => some ((low + high.toNat) / 2)
      else none := rfl

/-- Soundness of the `remoteDelete` bisection: a returned index is in
bounds and its element carries exactly the searched key. -/
theorem bsDel_sound {s : List CRDTChar} {p : List Nat} {sid : String} :
    ∀ fuel (low : Nat) (high : Int), high < (s.length : Int) →
      ∀ mid, bsDel s p sid fuel low high = some mid →
      mid < s.length ∧ (s.getD mid dummyChar).position = p ∧
        (s.getD mid dummyChar).siteId = sid := by
  intro fuel
  induction fuel with
  | zero => intro low high _ mid h; simp [bsDel] at h
  | succ f ih =>
    intro low high hh mid h
    rw [bsDel_succ] at h
    by_cases hcond : (low : Int) ≤ high
    · rw [if_pos hcond] at h
      have hmid : (low + high.toNat) / 2 < s.length := by omega
      rcases hc : posSiteCmp (s.getD ((low + high.toNat) / 2) dummyChar).position
          (s.getD ((low + high.toNat) / 2) dummyChar).siteId p sid
          with _ | _ | _ <;> rw [hc] at h
      · exact ih _ _ hh mid h
      · obtain ⟨h1, h2⟩ := posSiteCmp_eq_iff.mp hc
        have hmm : (low + high.toNat) / 2 = mid := by
          simpa using h
        rw [← hmm]
        exact ⟨hmid, h1, h2⟩
      · exact ih _ _ (by omega) mid h
    · rw [if_neg hcond] at h
      simp at h

theorem findIdxP_cons (pred : α → Bool) (x : α) (l : List α) :
    findIdxP pred (x :: l) =
      if pred x then some 0 else (findIdxP pred l).map (· + 1) := rfl

theorem findIdxP_none {pred : α → Bool} :
    ∀ {l : List α}, findIdxP pred l = none ↔ ∀ x ∈ l, pred x = false := by
  intro l
  induction l with
  | nil => simp [findIdxP]
  | cons x t ih =>
    rw [findIdxP_cons]
    by_cases hp : pred x
    · rw [if_pos hp]
      simp [hp]
    · rw [if_neg hp]
      rw [Option.map_eq_none']
      rw [ih]
      simp [Bool.not_eq_true] at hp
      simp [hp]

theorem findIdxP_some {pred : α → Bool} (d : α) :
    ∀ {l : List α} {i : Nat}, findIdxP pred l = some i →
      i < l.length ∧ pred (l.getD i d) = true ∧
      ∀ j, j < i → pred (l.getD j d) = false := by
  intro l
  induction l with
  | nil => intro i h; simp [findIdxP] at h
  | cons x t ih =>
    intro i h
    rw [findIdxP_cons] at h
    by_cases hp : pred x
    · rw [if_pos hp] at h
      have hi0 : i = 0 := by simpa using h.symm
      subst hi0
      refine ⟨by simp, by simpa [List.getD_cons_zero] using hp, ?_⟩
      intro j hj; omega
    · rw [if_neg hp] at h
      rw [Option.map_eq_some'] at h
      obtain ⟨j, hj, rfl⟩ := h
      simp only [Bool.not_eq_true] at hp
      obtain ⟨h1, h2, h3⟩ := ih hj
      refine ⟨by simpa using Nat.succ_lt_succ h1,
        by simpa [List.getD_cons_succ] using h2, ?_⟩
      intro k hk
      cases k with
      | zero => simpa [List.getD_cons_zero] using hp
      | succ k' => simpa [List.getD_cons_succ] using h3 k' (by omega)

theorem ordBeq_eq_iff {a : Ordering} : (a == Ordering.eq) = true ↔ a = Ordering.eq := by
  cases a <;> decide

theorem matchB_iff {p : List Nat} {sid : String} {c : CRDTChar} :
    matchB p sid c = true ↔ c.position = p ∧ c.siteId = sid := by
  unfold matchB
  rw [Bool.and_eq_true, ordBeq_eq_iff, beq_iff_eq, compareArrays_eq_iff]

/-- Under pairwise-distinct keys, at most one index matches a key. -/
theorem match_unique {s : List CRDTChar} (h : KeyNodup s) {p : List Nat}
    {sid : String} {i j : Nat} (hi : i < s.length) (hj : j < s.length)
    (hip : (s.getD i dummyChar).position = p) (his : (s.getD i dummyChar).siteId = sid)
    (hjp : (s.getD j dummyChar).position = p) (hjs : (s.getD j dummyChar).siteId = sid) :
    i = j := by
  by_contra hne
  have hcp : comparePositions (s.getD i dummyChar) (s.getD j dummyChar) = .eq := by
    unfold comparePositions
    rw [hip, his, hjp, hjs]
    exact posSiteCmp_eq_iff.mpr ⟨rfl, rfl⟩
  rcases Nat.lt_or_ge i j with h1 | h1
  · exact keyNodup_getD h h1 hj hcp
  · have h2 : j < i := by omega
    have := keyNodup_getD h h2 hi
    rw [cp_swap, hcp] at this
    simp [Ordering.swap] at this

/-- `remoteDelete` of an absent key: `-1` and no mutation (no
hypothesis on the state is needed; both search paths fail). -/
theorem remoteDelete_absent {s : List CRDTChar} {p : List Nat} {sid : String}
    (h : ∀ c ∈ s, ¬(c.position = p ∧ c.siteId = sid)) :
    remoteDelete s p sid = (s, -1) := by
  unfold remoteDelete
  rcases hb : bsDel s p sid (s.length + 1) 0 ((s.length : Int) - 1) with _ | mid
  · rcases hf : findIdxP (matchB p sid) s with _ | idx
    · rfl
    · exfalso
      obtain ⟨h1, h2, _⟩ := findIdxP_some dummyChar hf
      exact h _ (getD_mem h1) (matchB_iff.mp h2)
  · exfalso
    obtain ⟨h1, h2, h3⟩ := bsDel_sound _ _ _ (by omega) mid hb
    exact h _ (getD_mem h1) ⟨h2, h3⟩

/-- `remoteDelete` of a present key under distinct keys: exactly the
matching element is spliced out and its index returned (whichever of
the two search paths finds it). -/
theorem remoteDelete_found {s : List CRDTChar} {p : List Nat} {sid : String}
    (hnd : KeyNodup s) {k : Nat} (hk : k < s.length)
    (hkp : (s.getD k dummyChar).position = p)
    (hks : (s.getD k dummyChar).siteId = sid) :
    remoteDelete s p sid = (s.eraseIdx k, (k : Int)) := by
  unfold remoteDelete
  rcases hb : bsDel s p sid (s.length + 1) 0 ((s.length : Int) - 1) with _ | mid
  · rcases hf : findIdxP (matchB p sid) s with _ | idx
    · exfalso
      have h1 := findIdxP_none.mp hf _ (getD_mem hk)
      have h2 : matchB p sid (s.getD k dummyChar) = true := matchB_iff.mpr ⟨hkp, hks⟩
      rw [h1] at h2
      simp at h2
    · obtain ⟨h1, h2, _⟩ := findIdxP_some dummyChar hf
      obtain ⟨hip, his⟩ := matchB_iff.mp h2
      have hieq : idx = k := match_unique hnd h1 hk hip his hkp hks
      rw [hieq]
  · obtain ⟨h1, h2, h3⟩ := bsDel_sound _ _ _ (by omega) mid hb
    have hieq : mid = k := match_unique hnd h1 hk h2 h3 hkp hks
    rw [hieq]

theorem eraseIdx_eq_filter_of_unique {pred : α → Bool} (d : α) :
    ∀ (l : List α) (k : Nat), k < l.length → pred (l.getD k d) = true →
    (∀ j, j < l.length → j ≠ k → pred (l.getD j d) = false) →
    l.eraseIdx k = l.filter (fun c => !pred c) := by
  intro l
  induction l with
  | nil => intro k hk _ _; simp at hk
  | cons x t ih =>
    intro k hk hpk hother
    cases k with
    | zero =>
      have hx : pred x = true := by simpa [List.getD_cons_zero] using hpk
      have ht : ∀ y ∈ t, (!pred y) = true := by
        intro y hy
        obtain ⟨j, hj, hje⟩ := List.getElem_of_mem hy
        have := hother (j + 1) (by simpa using Nat.succ_lt_succ hj) (by omega)
        rw [List.getD_cons_succ, List.getD_eq_getElem _ _ hj, hje] at this
        simp [this]
      simp only [List.eraseIdx_cons_zero, List.filter_cons, hx]
      simp only [Bool.not_true, Bool.false_eq_true, if_false]
      exact (List.filter_eq_self.mpr ht).symm
    | succ k' =>
      have hx : pred x = false := by
        have := hother 0 (by simp) (by omega)
        simpa [List.getD_cons_zero] using this
      simp only [List.eraseIdx_cons_succ, List.filter_cons, hx]
      simp only [Bool.not_false, if_true]
      congr 1
      apply ih k' (by simpa using hk)
        (by simpa [List.getD_cons_succ] using hpk)
      intro j hj hjk
      have := hother (j + 1) (by simpa using Nat.succ_lt_succ hj) (by omega)
      simpa [List.getD_cons_succ] using this

/-- Under distinct keys, the state after `remoteDelete` is the key
filter. -/
theorem remoteDelete_filter {s : List CRDTChar} {p : List Nat} {sid : String}
    (hnd : KeyNodup s) :
    (remoteDelete s p sid).1 = s.filter (fun c => !(matchB p sid c)) := by
  by_cases h : ∃ c ∈ s, c.position = p ∧ c.siteId = sid
  · obtain ⟨c, hc, hcp, hcs⟩ := h
    obtain ⟨k, hk, hke⟩ := List.getElem_of_mem hc
    have hkd : s.getD k dummyChar = c := by
      rw [List.getD_eq_getElem _ _ hk]; exact hke
    rw [remoteDelete_found hnd hk (by rw [hkd]; exact hcp) (by rw [hkd]; exact hcs)]
    apply eraseIdx_eq_filter_of_unique dummyChar s k hk
      (matchB_iff.mpr ⟨by rw [hkd]; exact hcp, by rw [hkd]; exact hcs⟩)
    intro j hj hjk
    cases hmb : matchB p sid (s.getD j dummyChar)
    · rfl
    · exfalso
      obtain ⟨hjp, hjs⟩ := matchB_iff.mp hmb
      exact hjk (match_unique hnd hj hk hjp hjs (by rw [hkd]; exact hcp)
        (by rw [hkd]; exact hcs))
  · push_neg at h
    rw [remoteDelete_absent (by intro c hc; intro ⟨h1, h2⟩; exact h c hc h1 h2)]
    refine (List.filter_eq_self.mpr ?_).symm
    intro c hc
    cases hmb : matchB p sid c
    · rfl
    · exfalso
      obtain ⟨h1, h2⟩ := matchB_iff.mp hmb
      exact h c hc h1 h2

/-! ## Commutation lemmas and Claim C5 -/

theorem sInsert_cons (e x : CRDTChar) (xs : List CRDTChar) :
    sInsert e (x :: xs) =
      match comparePositions x e with
      | .lt => x :: sInsert e xs
      | .eq => x :: xs
      | .gt => e :: x :: xs := rfl

theorem filter_swap (p q : α → Bool) :
    ∀ l : List α, (l.filter q).filter p = (l.filter p).filter q := by
  intro l
  induction l with
  | nil => rfl
  | cons x t ih =>
    by_cases hp : p x <;> by_cases hq : q x <;>
      simp [List.filter_cons, hp, hq, ih]

/-- Inserting an element untouched by a filter commutes with the
filter on sorted duplicate-free states. -/
theorem sInsert_filter {e : CRDTChar} {q : CRDTChar → Bool} (hq : q e = true) :
    ∀ {s : List CRDTChar}, Inv s → ¬hasKey s e →
    (sInsert e s).filter q = sInsert e (s.filter q) := by
  intro s
  induction s with
  | nil => intro _ _; simp [sInsert, hq]
  | cons x xs ih =>
    intro hinv hnk
    have hx := List.pairwise_cons.mp hinv
    have hnkx : comparePositions x e ≠ .eq := fun hc => hnk ⟨x, by simp, hc⟩
    have hnkxs : ¬hasKey xs e := fun hw => by
      obtain ⟨w, hw1, hw2⟩ := hw
      exact hnk ⟨w, by simp [hw1], hw2⟩
    rcases hc : comparePositions x e with _ | _ | _
    · rw [sInsert_cons]
      rw [hc]
      by_cases hqx : q x
      · simp only [List.filter_cons, hqx, if_true]
        rw [sInsert_cons, hc, ih hx.2 hnkxs]
      · simp only [List.filter_cons, hqx, Bool.false_eq_true, if_false]
        exact ih hx.2 hnkxs
    · exact absurd hc hnkx
    · rw [sInsert_cons, hc]
      by_cases hqx : q x
      · simp only [List.filter_cons, hq, hqx, if_true]
        rw [sInsert_cons, hc]
      · simp only [List.filter_cons, hq, hqx, Bool.false_eq_true, if_false, if_true]
        refine (sInsert_front ?_).symm
        intro y hy
        have hyx : y ∈ xs := (List.mem_filter.mp hy).1
        exact cp_lt_iff_gt.mp (cp_lt_trans (cp_gt_iff_lt.mp hc) (hx.1 y hyx))

/-- Claim C5: on an engine state with pairwise-distinct keys (the
data-model invariant), `remoteDelete` returns `-1` and leaves the
sequence completely unchanged when the key is absent; when the key is
present it removes exactly that element and returns its index;
consequently it is idempotent, commutes with other `remoteDelete`s,
and commutes with `remoteInsert` of a different key. -/
theorem remoteDelete_spec (s : List CRDTChar) (p : List Nat) (sid : String)
    (hs : Inv s) :
    ((∀ c ∈ s, ¬(c.position = p ∧ c.siteId = sid)) →
       remoteDelete s p sid = (s, -1)) ∧
    (∀ k, k < s.length → (s.getD k dummyChar).position = p →
       (s.getD k dummyChar).siteId = sid →
       remoteDelete s p sid = (s.eraseIdx k, (k : Int))) ∧
    (remoteDelete (remoteDelete s p sid).1 p sid).1 = (remoteDelete s p sid).1 ∧
    (∀ p' sid', (remoteDelete (remoteDelete s p sid).1 p' sid').1 =
       (remoteDelete (remoteDelete s p' sid').1 p sid).1) ∧
    (∀ e : CRDTChar, ¬(e.position = p ∧ e.siteId = sid) →
       (remoteDelete (remoteInsert s e).1 p sid).1 =
       (remoteInsert (remoteDelete s p sid).1 e).1) := by
  have hnd := inv_keyNodup hs
  have hsle := inv_sle hs
  refine ⟨fun h => remoteDelete_absent h,
    fun k hk h1 h2 => remoteDelete_found hnd hk h1 h2, ?_, ?_, ?_⟩
  · rw [remoteDelete_filter hnd]
    rw [remoteDelete_absent ?_]
    intro c hc hmatch
    have h2 := (List.mem_filter.mp hc).2
    rw [matchB_iff.mpr hmatch] at h2
    simp at h2
  · intro p' sid'
    rw [remoteDelete_filter hnd, remoteDelete_filter (hnd.filter _),
      remoteDelete_filter hnd, remoteDelete_filter (hnd.filter _)]
    exact (filter_swap _ _ s).symm
  · intro e he
    have hinv' : Inv (sInsert e s) := sInsert_inv hs
    rw [remoteInsert_sorted_eq hsle]
    rw [remoteDelete_filter (inv_keyNodup hinv')]
    rw [remoteDelete_filter hnd]
    rw [remoteInsert_sorted_eq (inv_sle (hs.filter _))]
    have hq : (!(matchB p sid e)) = true := by
      cases hmb : matchB p sid e
      · rfl
      · exact absurd (matchB_iff.mp hmb) he
    by_cases hk : hasKey s e
    · rw [sInsert_hasKey_eq hsle hk]
      obtain ⟨w, hw, hweq⟩ := hk
      have hwq : (!(matchB p sid w)) = true := by
        cases hmb : matchB p sid w
        · rfl
        · exfalso
          obtain ⟨h1w, h2w⟩ := matchB_iff.mp hmb
          have hkey := cp_eq_iff.mp hweq
          have hp1 : w.position = e.position := congrArg Prod.fst hkey
          have hp2 : w.siteId = e.siteId := congrArg Prod.snd hkey
          exact he ⟨hp1 ▸ h1w, hp2 ▸ h2w⟩
      have hwmem : w ∈ s.filter (fun c => !(matchB p sid c)) :=
        List.mem_filter.mpr ⟨hw, hwq⟩
      rw [sInsert_hasKey_eq (inv_sle (hs.filter _)) ⟨w, hwmem, hweq⟩]
    · exact sInsert_filter hq hs hk

/-- Concrete witness for the C5 theorem: deleting the second element of
a two-element state twice. -/
theorem remoteDelete_spec_witness :
    Inv [⟨"a", [10], "S", none⟩, ⟨"b", [20], "S", none⟩] ∧
    (remoteDelete (remoteDelete [⟨"a", [10], "S", none⟩, ⟨"b", [20], "S", none⟩]
        [20] "S").1 [20] "S").1 =
      (remoteDelete [⟨"a", [10], "S", none⟩, ⟨"b", [20], "S", none⟩] [20] "S").1 :=
  ⟨by decide, (remoteDelete_spec _ [20] "S" (by decide)).2.2.1⟩

/-! ## The deletion-key encoding is injective -/

theorem digitChar_ne_sep (d : Nat) : digitChar d ≠ ',' ∧ digitChar d ≠ ':' := by
  unfold digitChar
  split <;> exact ⟨by decide, by decide⟩

/-- Reading a digit character back. -/
def digitVal : Char → Nat
  | '0' => 0
  | '1' => 1
  | '2' => 2
  | '3' => 3
  | '4' => 4
  | '5' => 5
  | '6' => 6
  | '7' => 7
  | '8' => 8
  | '9' => 9
  | _ => 0

theorem digitVal_digitChar (d : Nat) (h : d < 10) : digitVal (digitChar d) = d := by
  interval_cases d <;> rfl

/-- Decimal decoding, a left inverse of the rendering. -/
def decodeDigits (cs : List Char) : Nat :=
  cs.foldl (fun a c => 10 * a + digitVal c) 0

theorem decodeDigits_append_digit (cs : List Char) (c : Char) :
    decodeDigits (cs ++ [c]) = 10 * decodeDigits cs + digitVal c := by
  unfold decodeDigits
  rw [List.foldl_append]
  rfl

theorem decodeDigits_natReprAux :
    ∀ fuel n, n < fuel → decodeDigits (natReprAux fuel n) = n := by
  intro fuel
  induction fuel with
  | zero => intro n h; omega
  | succ f ih =>
    intro n h
    by_cases h10 : n < 10
    · rw [show natReprAux (f + 1) n = [digitChar n] from by simp [natReprAux, h10]]
      show 10 * 0 + digitVal (digitChar n) = n
      rw [digitVal_digitChar n h10]
      omega
    · rw [show natReprAux (f + 1) n =
          natReprAux f (n / 10) ++ [digitChar (n % 10)] from by simp [natReprAux, h10]]
      rw [decodeDigits_append_digit]
      rw [ih (n / 10) (by omega)]
      rw [digitVal_digitChar (n % 10) (by omega)]
      omega

theorem natRepr_inj {m n : Nat} (h : natRepr m = natRepr n) : m = n := by
  have h1 := decodeDigits_natReprAux (m + 1) m (by omega)
  have h2 := decodeDigits_natReprAux (n + 1) n (by omega)
  unfold natRepr at h
  rw [← h1, ← h2, h]

theorem natRepr_ne_nil (n : Nat) : natRepr n ≠ [] := by
  unfold natRepr
  by_cases h10 : n < 10 <;> simp [natReprAux, h10]

theorem natReprAux_digits :
    ∀ fuel n (c : Char), c ∈ natReprAux fuel n → ∃ d, c = digitChar d := by
  intro fuel
  induction fuel with
  | zero => intro n c h; simp [natReprAux] at h
  | succ f ih =>
    intro n c h
    by_cases h10 : n < 10
    · rw [show natReprAux (f + 1) n = [digitChar n] from by simp [natReprAux, h10]] at h
      simp at h
      exact ⟨n, h⟩
    · rw [show natReprAux (f + 1) n =
          natReprAux f (n / 10) ++ [digitChar (n % 10)] from by simp [natReprAux, h10]] at h
      rcases List.mem_append.mp h with h1 | h1
      · exact ih _ c h1
      · simp at h1
        exact ⟨n % 10, h1⟩

theorem natRepr_no_sep {n : Nat} {c : Char} (h : c ∈ natRepr n) :
    c ≠ ',' ∧ c ≠ ':' := by
  obtain ⟨d, rfl⟩ := natReprAux_digits _ _ _ h
  exact digitChar_ne_sep d

/-- A separator absent from both left parts splits an equation of
separated concatenations. -/
theorem sep_split_first {c : Char} :
    ∀ (a b u v : List Char), c ∉ a → c ∉ b → a ++ c :: u = b ++ c :: v →
      a = b ∧ u = v := by
  intro a
  induction a with
  | nil =>
    intro b u v _ hb h
    cases b with
    | nil =>
      simp only [List.nil_append, List.cons.injEq] at h
      exact ⟨rfl, h.2⟩
    | cons y t =>
      simp only [List.nil_append, List.cons_append, List.cons.injEq] at h
      exact absurd (by rw [← h.1]; exact List.mem_cons_self _ _) hb
  | cons x t ih =>
    intro b u v ha hb h
    cases b with
    | nil =>
      simp only [List.nil_append, List.cons_append, List.cons.injEq] at h
      exact absurd (by rw [h.1]; exact List.mem_cons_self _ _) ha
    | cons y s =>
      simp only [List.cons_append, List.cons.injEq] at h
      obtain ⟨rfl, h2⟩ := h
      obtain ⟨hab, huv⟩ := ih s u v (fun hm => ha (List.mem_cons_of_mem _ hm))
        (fun hm => hb (List.mem_cons_of_mem _ hm)) h2
      exact ⟨by rw [hab], huv⟩

/-- A separator absent from both right parts splits an equation of
separated concatenations (the last-occurrence version). -/
theorem sep_split_last {c : Char} :
    ∀ (a b u v : List Char), c ∉ u → c ∉ v → a ++ c :: u = b ++ c :: v →
      a = b ∧ u = v := by
  intro a
  induction a with
  | nil =>
    intro b u v hu _ h
    cases b with
    | nil =>
      simp only [List.nil_append, List.cons.injEq] at h
      exact ⟨rfl, h.2⟩
    | cons y t =>
      simp only [List.nil_append, List.cons_append, List.cons.injEq] at h
      exfalso
      apply hu
      rw [h.2]
      exact List.mem_append_right _ (List.mem_cons_self _ _)
  | cons x t ih =>
    intro b u v hu hv h
    cases b with
    | nil =>
      simp only [List.nil_append, List.cons_append, List.cons.injEq] at h
      exfalso
      apply hv
      rw [← h.2]
      exact List.mem_append_right _ (List.mem_cons_self _ _)
    | cons y s =>
      simp only [List.cons_append, List.cons.injEq] at h
      obtain ⟨rfl, h2⟩ := h
      obtain ⟨hab, huv⟩ := ih s u v hu hv h2
      exact ⟨by rw [hab], huv⟩

theorem joinComma_no_colon :
    ∀ L : List (List Char), (∀ x ∈ L, ':' ∉ x) → ':' ∉ joinComma L := by
  intro L
  induction L with
  | nil => intro _; simp [joinComma]
  | cons x t ih =>
    intro h
    cases t with
    | nil => simpa [joinComma] using h x (by simp)
    | cons y s =>
      intro hmem
      rw [show joinComma (x :: y :: s) = x ++ ',' :: joinComma (y :: s) from rfl] at hmem
      rcases List.mem_append.mp hmem with h1 | h1
      · exact h x (by simp) h1
      · rcases List.mem_cons.mp h1 with h2 | h2
        · exact absurd h2 (by decide)
        · exact ih (fun z hz => h z (List.mem_cons_of_mem _ hz)) h2

theorem joinComma_inj :
    ∀ (L1 L2 : List (List Char)),
      (∀ x ∈ L1, x ≠ [] ∧ ',' ∉ x) → (∀ x ∈ L2, x ≠ [] ∧ ',' ∉ x) →
      joinComma L1 = joinComma L2 → L1 = L2 := by
  intro L1
  induction L1 with
  | nil =>
    intro L2 _ h2 h
    cases L2 with
    | nil => rfl
    | cons y t =>
      cases t with
      | nil =>
        rw [show joinComma ([] : List (List Char)) = [] from rfl,
          show joinComma [y] = y from rfl] at h
        exact absurd h.symm (h2 y (by simp)).1
      | cons z s =>
        rw [show joinComma ([] : List (List Char)) = [] from rfl,
          show joinComma (y :: z :: s) = y ++ ',' :: joinComma (z :: s) from rfl] at h
        exact absurd h.symm (by simp)
  | cons x t ih =>
    intro L2 h1 h2 h
    cases L2 with
    | nil =>
      cases t with
      | nil =>
        rw [show joinComma [x] = x from rfl,
          show joinComma ([] : List (List Char)) = [] from rfl] at h
        exact absurd h (h1 x (by simp)).1
      | cons x2 t2 =>
        rw [show joinComma (x :: x2 :: t2) = x ++ ',' :: joinComma (x2 :: t2) from rfl,
          show joinComma ([] : List (List Char)) = [] from rfl] at h
        exact absurd h (by simp)
    | cons y s =>
      cases t with
      | nil =>
        cases s with
        | nil =>
          rw [show joinComma [x] = x from rfl, show joinComma [y] = y from rfl] at h
          rw [h]
        | cons y2 s2 =>
          rw [show joinComma [x] = x from rfl,
            show joinComma (y :: y2 :: s2) = y ++ ',' :: joinComma (y2 :: s2) from rfl] at h
          exfalso
          apply (h1 x (by simp)).2
          rw [h]
          exact List.mem_append_right _ (List.mem_cons_self _ _)
      | cons x2 t2 =>
        cases s with
        | nil =>
          rw [show joinComma (x :: x2 :: t2) = x ++ ',' :: joinComma (x2 :: t2) from rfl,
            show joinComma [y] = y from rfl] at h
          exfalso
          apply (h2 y (by simp)).2
          rw [← h]
          exact List.mem_append_right _ (List.mem_cons_self _ _)
        | cons y2 s2 =>
          rw [show joinComma (x :: x2 :: t2) = x ++ ',' :: joinComma (x2 :: t2) from rfl,
            show joinComma (y :: y2 :: s2) = y ++ ',' :: joinComma (y2 :: s2) from rfl] at h
          obtain ⟨rfl, h3⟩ := sep_split_first x y _ _ (h1 x (by simp)).2
            (h2 y (by simp)).2 h
          rw [ih (y2 :: s2) (fun z hz => h1 z (List.mem_cons_of_mem _ hz))
            (fun z hz => h2 z (List.mem_cons_of_mem _ hz)) h3]

/-- The `siteId:position.join(',')` key determines the site identifier
and the position. -/
theorem deletionKey_inj {sid1 sid2 : String} {p1 p2 : List Nat}
    (h : deletionKey sid1 p1 = deletionKey sid2 p2) : sid1 = sid2 ∧ p1 = p2 := by
  unfold deletionKey at h
  have hc1 : ':' ∉ joinComma (p1.map natRepr) := by
    apply joinComma_no_colon
    intro x hx hcm
    obtain ⟨n, _, rfl⟩ := List.mem_map.mp hx
    exact (natRepr_no_sep hcm).2 rfl
  have hc2 : ':' ∉ joinComma (p2.map natRepr) := by
    apply joinComma_no_colon
    intro x hx hcm
    obtain ⟨n, _, rfl⟩ := List.mem_map.mp hx
    exact (natRepr_no_sep hcm).2 rfl
  obtain ⟨hdata, hjoin⟩ := sep_split_last _ _ _ _ hc1 hc2 h
  constructor
  · cases sid1; cases sid2; exact congrArg String.mk hdata
  · have hmap := joinComma_inj _ _ ?_ ?_ hjoin
    · exact List.map_injective_iff.mpr (fun a b => natRepr_inj) hmap
    · intro x hx
      obtain ⟨n, _, rfl⟩ := List.mem_map.mp hx
      exact ⟨natRepr_ne_nil n, fun hcm => (natRepr_no_sep hcm).1 rfl⟩
    · intro x hx
      obtain ⟨n, _, rfl⟩ := List.mem_map.mp hx
      exact ⟨natRepr_ne_nil n, fun hcm => (natRepr_no_sep hcm).1 rfl⟩

/-! ## batchRemoteDelete equivalence and Claim C6 -/

theorem bool_eq_of_iff {a b : Bool} (h : a = true ↔ b = true) : a = b := by
  cases a <;> cases b <;> simp_all

theorem contains_iff_mem {α} [BEq α] [LawfulBEq α] {l : List α} {a : α} :
    l.contains a = true ↔ a ∈ l := by simp

/-- An element is hit by some descriptor of the batch. -/
def killB (ops : List DelOp) (c : CRDTChar) : Bool :=
  ops.any (fun o => matchB o.position o.siteId c)

theorem killB_iff {ops : List DelOp} {c : CRDTChar} :
    killB ops c = true ↔ ∃ o ∈ ops, c.position = o.position ∧ c.siteId = o.siteId := by
  unfold killB
  rw [List.any_eq_true]
  constructor
  · intro ⟨o, ho, hm⟩; exact ⟨o, ho, matchB_iff.mp hm⟩
  · intro ⟨o, ho, hm⟩; exact ⟨o, ho, matchB_iff.mpr hm⟩

/-- The string-key membership test agrees with the structural one. -/
theorem deletionSet_eq_killB (ops : List DelOp) (c : CRDTChar) :
    (ops.map (fun o => deletionKey o.siteId o.position)).contains
      (deletionKey c.siteId c.position) = killB ops c := by
  apply bool_eq_of_iff
  rw [contains_iff_mem, killB_iff, List.mem_map]
  constructor
  · intro ⟨o, ho, he⟩
    obtain ⟨h1, h2⟩ := deletionKey_inj he
    exact ⟨o, ho, h2.symm, h1.symm⟩
  · intro ⟨o, ho, h1, h2⟩
    exact ⟨o, ho, by rw [h1, h2]⟩

theorem countP_congr' {p q : α → Bool} :
    ∀ {l : List α}, (∀ a ∈ l, p a = q a) → l.countP p = l.countP q := by
  intro l
  induction l with
  | nil => intro _; rfl
  | cons x t ih =>
    intro h
    rw [List.countP_cons, List.countP_cons, h x (by simp),
      ih (fun a ha => h a (List.mem_cons_of_mem _ ha))]

/-- `batchRemoteDelete` in terms of the structural predicate. -/
theorem batch_eq_filter (s : List CRDTChar) (ops : List DelOp) :
    batchRemoteDelete s ops =
      (s.filter (fun c => !(killB ops c)), s.countP (killB ops)) := by
  unfold batchRemoteDelete
  by_cases hops : ops = []
  · subst hops
    rw [if_pos rfl]
    simp only [Prod.mk.injEq]
    constructor
    · refine (List.filter_eq_self.mpr ?_).symm
      intro c _
      simp [killB]
    · rw [show s.countP (killB []) = s.countP (fun _ => false) from
        countP_congr' (fun a _ => by simp [killB])]
      simp
  · rw [if_neg hops]
    simp only [Prod.mk.injEq]
    constructor
    · apply List.filter_congr
      intro c _
      rw [deletionSet_eq_killB]
    · exact countP_congr' (fun c _ => deletionSet_eq_killB ops c)

theorem filter_filter' (p q : α → Bool) :
    ∀ l : List α, (l.filter q).filter p = l.filter (fun a => q a && p a) := by
  intro l
  induction l with
  | nil => rfl
  | cons x t ih =>
    by_cases hp : p x <;> by_cases hq : q x <;>
      simp [List.filter_cons, hp, hq, ih]

theorem countP_add_not (p : α → Bool) :
    ∀ l : List α, l.countP p + l.countP (fun a => !p a) = l.length := by
  intro l
  induction l with
  | nil => rfl
  | cons x t ih =>
    rw [List.countP_cons, List.countP_cons, List.length_cons]
    cases hp : p x <;> simp [hp] <;> omega

/-- Folding `remoteDelete` over the descriptors is the combined key
filter, provided keys are pairwise distinct. -/
theorem foldl_remoteDelete_filter :
    ∀ (ops : List DelOp) (s : List CRDTChar), KeyNodup s →
      ops.foldl (fun t o => (remoteDelete t o.position o.siteId).1) s =
        s.filter (fun c => !(killB ops c)) := by
  intro ops
  induction ops with
  | nil =>
    intro s _
    rw [List.foldl_nil]
    refine (List.filter_eq_self.mpr ?_).symm
    intro c _
    simp [killB]
  | cons o t ih =>
    intro s hnd
    rw [List.foldl_cons]
    rw [show (remoteDelete s o.position o.siteId).1 =
      s.filter (fun c => !(matchB o.position o.siteId c)) from remoteDelete_filter hnd]
    rw [ih _ (hnd.filter _)]
    rw [filter_filter']
    apply List.filter_congr
    intro c _
    show ((!matchB o.position o.siteId c) && (!killB t c)) = (!killB (o :: t) c)
    have hk : killB (o :: t) c = (matchB o.position o.siteId c || killB t c) := by
      simp [killB]
    rw [hk, Bool.not_or]


/-- Claim C6: under the data-model invariant (pairwise-distinct keys),
`batchRemoteDelete` produces the same final sequence as applying
`remoteDelete` individually for each descriptor, and returns the
number of elements removed; in particular on descriptors addressing
only absent keys it returns 0 and leaves the sequence unchanged,
raising no error. -/
theorem batchRemoteDelete_spec (s : List CRDTChar) (ops : List DelOp)
    (hs : KeyNodup s) :
    (batchRemoteDelete s ops).1 =
      ops.foldl (fun t o => (remoteDelete t o.position o.siteId).1) s ∧
    (batchRemoteDelete s ops).2 = s.length - (batchRemoteDelete s ops).1.length ∧
    ((∀ o ∈ ops, ∀ c ∈ s, ¬(c.position = o.position ∧ c.siteId = o.siteId)) →
      batchRemoteDelete s ops = (s, 0)) := by
  rw [batch_eq_filter]
  refine ⟨(foldl_remoteDelete_filter ops s hs).symm, ?_, ?_⟩
  · show s.countP (killB ops) =
      s.length - (s.filter (fun c => !(killB ops c))).length
    rw [← List.countP_eq_length_filter]
    have := countP_add_not (killB ops) s
    omega
  · intro h
    have hnone : ∀ c ∈ s, killB ops c = false := by
      intro c hc
      cases hk : killB ops c
      · rfl
      · exfalso
        obtain ⟨o, ho, h1, h2⟩ := killB_iff.mp hk
        exact h o ho c hc ⟨h1, h2⟩
    rw [Prod.mk.injEq]
    constructor
    · refine List.filter_eq_self.mpr ?_
      intro c hc
      rw [hnone c hc]
      rfl
    · show s.countP (killB ops) = 0
      rw [List.countP_eq_zero]
      intro c hc
      rw [hnone c hc]
      simp

/-- Concrete witness for the C6 theorem: two descriptors, one present
and one absent key. -/
theorem batchRemoteDelete_spec_witness :
    KeyNodup [⟨"a", [10], "S", none⟩, ⟨"b", [20], "S", none⟩] ∧
    (batchRemoteDelete [⟨"a", [10], "S", none⟩, ⟨"b", [20], "S", none⟩]
        [⟨[20], "S"⟩, ⟨[99], "T"⟩]).1 =
      ([⟨[20], "S"⟩, ⟨[99], "T"⟩] : List DelOp).foldl
        (fun t o => (remoteDelete t o.position o.siteId).1)
        [⟨"a", [10], "S", none⟩, ⟨"b", [20], "S", none⟩] :=
  ⟨by decide, (batchRemoteDelete_spec _ _ (by decide)).1⟩

/-! ## Allocator bounds and Claim C2 -/

theorem natCmp_refl (a : Nat) : natCmp a a = .eq := natCmp_eq_iff.mpr rfl

theorem compareArrays_cons (a b : Nat) (t u : List Nat) :
    compareArrays (a :: t) (b :: u) =
      match natCmp a b with
      | .eq => compareArrays t u
      | o => o := rfl

theorem genLoop_zero (p1 p2 : List Nat) :
    genLoop p1 p2 0 =
      if 1 < p2.headD 1024 - p1.headD 0 then
        [p1.headD 0 + (p2.headD 1024 - p1.headD 0 + 1) / 2]
      else [p1.headD 0, p1.headD 0 + 1] := rfl

theorem genLoop_succ (p1 p2 : List Nat) (f : Nat) :
    genLoop p1 p2 (f + 1) =
      if 1 < p2.headD 1024 - p1.headD 0 then
        [p1.headD 0 + (p2.headD 1024 - p1.headD 0 + 1) / 2]
      else p1.headD 0 :: genLoop p1.tail p2.tail f := rfl

theorem getD_tail_nat (l : List Nat) (i : Nat) :
    l.tail.getD i 0 = l.getD (i + 1) 0 := by
  cases l <;> rfl

theorem headD_eq_getD (l : List Nat) : l.headD 0 = l.getD 0 0 := by
  cases l <;> rfl

/-- The allocator result is strictly above the lower bound whenever the
lower bound is short enough not to hit the depth cap. -/
theorem genLoop_gt_lower :
    ∀ (fuel : Nat) (p1 p2 : List Nat), p1.length ≤ fuel + 1 →
      compareArrays p1 (genLoop p1 p2 fuel) = .lt := by
  intro fuel
  induction fuel with
  | zero =>
    intro p1 p2 hlen
    rw [genLoop_zero]
    cases p1 with
    | nil => split <;> rfl
    | cons a t =>
      have ht : t = [] := List.eq_nil_of_length_eq_zero (by
        simp only [List.length_cons] at hlen; omega)
      subst ht
      simp only [List.headD_cons]
      by_cases hd : 1 < p2.headD 1024 - a
      · rw [if_pos hd]
        have hn : natCmp a (a + (p2.headD 1024 - a + 1) / 2) = .lt :=
          natCmp_lt_iff.mpr (by omega)
        rw [compareArrays_cons, hn]
      · rw [if_neg hd]
        rw [compareArrays_cons, natCmp_refl]
        rfl
  | succ f ih =>
    intro p1 p2 hlen
    rw [genLoop_succ]
    cases p1 with
    | nil => split <;> rfl
    | cons a t =>
      simp only [List.headD_cons, List.tail_cons]
      by_cases hd : 1 < p2.headD 1024 - a
      · rw [if_pos hd]
        have hn : natCmp a (a + (p2.headD 1024 - a + 1) / 2) = .lt :=
          natCmp_lt_iff.mpr (by omega)
        rw [compareArrays_cons, hn]
      · rw [if_neg hd]
        rw [compareArrays_cons, natCmp_refl]
        exact ih t p2.tail (by simp only [List.length_cons] at hlen; omega)

/-- The allocator result is strictly below the upper bound whenever the
upper bound differs from the zero-padding of the lower bound at a depth
within the cap, the first such difference being an increase. -/
theorem genLoop_lt_upper :
    ∀ (j fuel : Nat) (p1 p2 : List Nat), j ≤ fuel → j < p2.length →
      (∀ i, i < j → p1.getD i 0 = p2.getD i 0) →
      p1.getD j 0 < p2.getD j 0 →
      compareArrays (genLoop p1 p2 fuel) p2 = .lt := by
  intro j
  induction j with
  | zero =>
    intro fuel p1 p2 _ hlen _ hj
    cases p2 with
    | nil => simp at hlen
    | cons b u =>
      have hv1 : p1.headD 0 = p1.getD 0 0 := headD_eq_getD p1
      have hb : (b :: u).getD 0 0 = b := rfl
      rw [hb] at hj
      have hbd : (b :: u).headD 1024 = b := rfl
      cases fuel with
      | zero =>
        rw [genLoop_zero, hbd]
        by_cases hd : 1 < b - p1.headD 0
        · rw [if_pos hd]
          have hn : natCmp (p1.headD 0 + (b - p1.headD 0 + 1) / 2) b = .lt :=
            natCmp_lt_iff.mpr (by omega)
          rw [compareArrays_cons, hn]
        · rw [if_neg hd]
          have hn : natCmp (p1.headD 0) b = .lt :=
            natCmp_lt_iff.mpr (by rw [hv1]; omega)
          rw [compareArrays_cons, hn]
      | succ f =>
        rw [genLoop_succ, hbd]
        by_cases hd : 1 < b - p1.headD 0
        · rw [if_pos hd]
          have hn : natCmp (p1.headD 0 + (b - p1.headD 0 + 1) / 2) b = .lt :=
            natCmp_lt_iff.mpr (by omega)
          rw [compareArrays_cons, hn]
        · rw [if_neg hd]
          have hn : natCmp (p1.headD 0) b = .lt :=
            natCmp_lt_iff.mpr (by rw [hv1]; omega)
          rw [compareArrays_cons, hn]
  | succ k ihk =>
    intro fuel p1 p2 hjf hlen hpre hj
    cases fuel with
    | zero => omega
    | succ f =>
      cases p2 with
      | nil => simp at hlen
      | cons b u =>
        have hv1 : p1.headD 0 = p1.getD 0 0 := headD_eq_getD p1
        have heq0 : p1.getD 0 0 = b := hpre 0 (by omega)
        have hbd : (b :: u).headD 1024 = b := rfl
        rw [genLoop_succ, hbd]
        have hdiff : ¬ 1 < b - p1.headD 0 := by
          rw [hv1, heq0]; omega
        rw [if_neg hdiff]
        have hhead : natCmp (p1.headD 0) b = .eq := by
          rw [hv1, heq0]; exact natCmp_refl b
        rw [compareArrays_cons, hhead]
        apply ihk f p1.tail u (by omega)
          (by simp only [List.length_cons] at hlen; omega)
        · intro i hi
          rw [getD_tail_nat]
          exact hpre (i + 1) (by omega)
        · rw [getD_tail_nat]
          exact hj

/-- Prefix-equal lists with a later larger component on the left
compare greater. -/
theorem compareArrays_gt_of_prefix :
    ∀ (j : Nat) (p1 p2 : List Nat),
      (∀ i, i < j → p1.getD i 0 = p2.getD i 0) → j < p1.length → j < p2.length →
      p2.getD j 0 < p1.getD j 0 → compareArrays p1 p2 = .gt := by
  intro j
  induction j with
  | zero =>
    intro p1 p2 _ h1 h2 hj
    cases p1 with
    | nil => simp at h1
    | cons a t =>
      cases p2 with
      | nil => simp at h2
      | cons b u =>
        have hn : natCmp a b = .gt := natCmp_gt_iff.mpr (by
          have ha : (a :: t).getD 0 0 = a := rfl
          have hb : (b :: u).getD 0 0 = b := rfl
          rw [ha, hb] at hj; exact hj)
        rw [compareArrays_cons, hn]
  | succ k ih =>
    intro p1 p2 hpre h1 h2 hj
    cases p1 with
    | nil => simp at h1
    | cons a t =>
      cases p2 with
      | nil => simp at h2
      | cons b u =>
        have h0 : a = b := by
          have := hpre 0 (by omega)
          simpa using this
        subst h0
        rw [compareArrays_cons, natCmp_refl]
        apply ih t u
        · intro i hi
          have := hpre (i + 1) (by omega)
          simpa [List.getD_cons_succ] using this
        · simpa using Nat.lt_of_succ_lt_succ (by simpa using h1)
        · simpa using Nat.lt_of_succ_lt_succ (by simpa using h2)
        · simpa [List.getD_cons_succ] using hj

/-- Claim C2 (amended): for identifiers of length at most 128 with
`before < after` and `after` not the zero-padded extension of `before`
(some component of `after` differs from the corresponding, zero-padded,
component of `before`), the allocator returns an identifier strictly
between the two. -/
theorem generateIdentifierBetween_between (p1 p2 : List Nat)
    (h1 : p1.length ≤ 128) (h2 : p2.length ≤ 128)
    (hlt : compareArrays p1 p2 = .lt)
    (hne : ∃ j, j < p2.length ∧ p1.getD j 0 ≠ p2.getD j 0) :
    compareArrays p1 (generateIdentifierBetween p1 p2) = .lt ∧
    compareArrays (generateIdentifierBetween p1 p2) p2 = .lt := by
  constructor
  · exact genLoop_gt_lower 128 p1 p2 (by omega)
  · have hP : ∃ j, j < p2.length ∧ p1.getD j 0 ≠ p2.getD j 0 := hne
    have hspec : Nat.find hP < p2.length ∧
        p1.getD (Nat.find hP) 0 ≠ p2.getD (Nat.find hP) 0 := Nat.find_spec hP
    have hmin : ∀ i, i < Nat.find hP → p1.getD i 0 = p2.getD i 0 := by
      intro i hi
      by_contra hne'
      exact Nat.find_min hP hi ⟨Nat.lt_trans hi hspec.1, hne'⟩
    have hdir : p1.getD (Nat.find hP) 0 < p2.getD (Nat.find hP) 0 := by
      rcases Nat.lt_trichotomy (p1.getD (Nat.find hP) 0) (p2.getD (Nat.find hP) 0)
        with h | h | h
      · exact h
      · exact absurd h hspec.2
      · exfalso
        have hlen1 : Nat.find hP < p1.length := by
          by_contra hc
          have hz : p1.getD (Nat.find hP) 0 = 0 :=
            List.getD_eq_default p1 0 (by omega)
          rw [hz] at h
          omega
        have hgt := compareArrays_gt_of_prefix (Nat.find hP) p1 p2 hmin hlen1
          hspec.1 h
        rw [hlt] at hgt
        simp at hgt
    have hle : Nat.find hP ≤ 128 := by
      have := hspec.1
      omega
    exact genLoop_lt_upper (Nat.find hP) 128 p1 p2 hle hspec.1 hmin hdir

/-- Counterexample to claim C2 as stated: for `before = [0]` and
`after = [0, 0]` (with `before < after`) the allocator returns
`[0, 0, 512]`, which is strictly greater than `after`. -/
theorem generateIdentifierBetween_not_between :
    compareArrays [0] [0, 0] = .lt ∧
    generateIdentifierBetween [0] [0, 0] = [0, 0, 512] ∧
    compareArrays (generateIdentifierBetween [0] [0, 0]) [0, 0] = .gt := by
  decide

/-- Concrete witness for the amended C2 theorem. -/
theorem generateIdentifierBetween_between_witness :
    ([0] : List Nat).length ≤ 128 ∧ ([5] : List Nat).length ≤ 128 ∧
    compareArrays [0] [5] = .lt ∧
    (compareArrays [0] (generateIdentifierBetween [0] [5]) = .lt ∧
     compareArrays (generateIdentifierBetween [0] [5]) [5] = .lt) :=
  ⟨by decide, by decide, by decide,
   generateIdentifierBetween_between [0] [5] (by decide) (by decide) (by decide)
     ⟨0, by decide, by decide⟩⟩

/-! ## loadState: the stable sort, and Claim C3 -/

theorem orderedInsert_mem {le : α → α → Bool} {a y : α} :
    ∀ {l : List α}, y ∈ orderedInsert le a l ↔ y = a ∨ y ∈ l := by
  intro l
  induction l with
  | nil => simp [orderedInsert]
  | cons b t ih =>
    by_cases h : le a b
    · simp [orderedInsert, h]
    · simp only [orderedInsert, h, Bool.false_eq_true, if_false, List.mem_cons, ih]
      tauto

theorem orderedInsert_pairwise {le : α → α → Bool}
    (htot : ∀ x y : α, le x y = true ∨ le y x = true)
    (htrans : ∀ x y z : α, le x y = true → le y z = true → le x z = true)
    (a : α) :
    ∀ {l : List α}, l.Pairwise (fun x y => le x y = true) →
      (orderedInsert le a l).Pairwise (fun x y => le x y = true) := by
  intro l
  induction l with
  | nil => intro _; simp [orderedInsert]
  | cons b t ih =>
    intro h
    have hb := List.pairwise_cons.mp h
    by_cases hab : le a b
    · simp only [orderedInsert, hab, if_true]
      refine List.pairwise_cons.mpr ⟨?_, h⟩
      intro y hy
      rcases List.mem_cons.mp hy with rfl | hy'
      · exact hab
      · exact htrans a b y hab (hb.1 y hy')
    · simp only [orderedInsert, hab, Bool.false_eq_true, if_false]
      refine List.pairwise_cons.mpr ⟨?_, ih hb.2⟩
      intro y hy
      rcases orderedInsert_mem.mp hy with rfl | hy'
      · rcases htot y b with h1 | h1
        · exact absurd h1 hab
        · exact h1
      · exact hb.1 y hy'

theorem stableSort_pairwise {le : α → α → Bool}
    (htot : ∀ x y : α, le x y = true ∨ le y x = true)
    (htrans : ∀ x y z : α, le x y = true → le y z = true → le x z = true) :
    ∀ l : List α, (stableSort le l).Pairwise (fun x y => le x y = true) := by
  intro l
  induction l with
  | nil => exact List.Pairwise.nil
  | cons a t ih => exact orderedInsert_pairwise htot htrans a ih

theorem orderedInsert_perm {le : α → α → Bool} (a : α) :
    ∀ l : List α, (orderedInsert le a l).Perm (a :: l) := by
  intro l
  induction l with
  | nil => exact List.Perm.refl _
  | cons b t ih =>
    by_cases h : le a b
    · simp [orderedInsert, h]
    · simp only [orderedInsert, h, Bool.false_eq_true, if_false]
      exact (List.Perm.cons b ih).trans (List.Perm.swap a b t)

theorem stableSort_perm {le : α → α → Bool} :
    ∀ l : List α, (stableSort le l).Perm l := by
  intro l
  induction l with
  | nil => exact List.Perm.refl _
  | cons a t ih =>
    exact (orderedInsert_perm a (stableSort le t)).trans (List.Perm.cons a ih)

theorem cpLe_iff {a b : CRDTChar} : cpLe a b = true ↔ comparePositions a b ≠ .gt := by
  unfold cpLe
  cases h : comparePositions a b <;> decide

theorem cpLe_total (a b : CRDTChar) : cpLe a b = true ∨ cpLe b a = true := by
  rcases h : comparePositions a b with _ | _ | _
  · exact Or.inl (cpLe_iff.mpr (by rw [h]; simp))
  · exact Or.inl (cpLe_iff.mpr (by rw [h]; simp))
  · refine Or.inr (cpLe_iff.mpr ?_)
    rw [cp_gt_iff_lt.mp h]
    simp

theorem cpLe_trans (x y z : CRDTChar) (h1 : cpLe x y = true) (h2 : cpLe y z = true) :
    cpLe x z = true :=
  cpLe_iff.mpr (cp_le_trans (cpLe_iff.mp h1) (cpLe_iff.mp h2))

theorem loadState_sle (l : List CRDTChar) : Sle (loadState l) := by
  have h := stableSort_pairwise cpLe_total cpLe_trans l
  exact h.imp (fun hx => cpLe_iff.mp hx)

theorem loadState_perm (l : List CRDTChar) : (loadState l).Perm l :=
  stableSort_perm l

theorem keyNodup_symm :
    ∀ {a b : CRDTChar}, comparePositions a b ≠ .eq → comparePositions b a ≠ .eq := by
  intro a b h hc
  apply h
  rw [cp_swap] at hc
  cases hx : comparePositions a b <;> rw [hx] at hc <;> simp [Ordering.swap] at hc

theorem keyNodup_perm {s t : List CRDTChar} (hp : s.Perm t) (h : KeyNodup s) :
    KeyNodup t :=
  (List.Perm.pairwise_iff (fun hx => keyNodup_symm hx) hp).mp h

theorem loadState_inv {l : List CRDTChar} (h : KeyNodup l) : Inv (loadState l) := by
  have h1 : Sle (loadState l) := loadState_sle l
  have h2 : KeyNodup (loadState l) := keyNodup_perm (loadState_perm l).symm h
  have h3 := List.Pairwise.and h1 h2
  refine h3.imp ?_
  intro a b hab
  rcases hc : comparePositions a b with _ | _ | _
  · rfl
  · exact absurd hc hab.2
  · exact absurd hc hab.1

theorem set_getD_eq (d : α) : ∀ (l : List α) (j : Nat), l.set j (l.getD j d) = l := by
  intro l
  induction l with
  | nil => intro j; rfl
  | cons x t ih =>
    intro j
    cases j with
    | zero => rfl
    | succ n =>
      show x :: t.set n (t.getD n d) = x :: t
      rw [ih]

/-- Replacing an element by one with the same key preserves the
invariant. -/
theorem inv_set_key_eq {s : List CRDTChar} (hs : Inv s) (j : Nat)
    {c' : CRDTChar} (hkey : keyOf c' = keyOf (s.getD j dummyChar)) :
    Inv (s.set j c') := by
  have hmap : (s.set j c').map keyOf = s.map keyOf := by
    rw [List.map_set, hkey]
    have hg : keyOf (s.getD j dummyChar) = (s.map keyOf).getD j (keyOf dummyChar) := by
      by_cases hj : j < s.length
      · rw [List.getD_eq_getElem _ _ hj,
          List.getD_eq_getElem _ _ (by simpa using hj)]
        rw [List.getElem_map]
      · rw [List.getD_eq_default _ _ (by omega),
          List.getD_eq_default _ _ (by simpa using (by omega : s.length ≤ j))]
    rw [hg, set_getD_eq]
  have h1 : (s.map keyOf).Pairwise
      (fun k1 k2 => posSiteCmp k1.1 k1.2 k2.1 k2.2 = .lt) := by
    rw [List.pairwise_map]
    exact hs
  rw [← hmap] at h1
  rw [List.pairwise_map] at h1
  exact h1

theorem inv_eraseIdx {s : List CRDTChar} (hs : Inv s) (k : Nat) :
    Inv (s.eraseIdx k) :=
  List.Pairwise.sublist (List.eraseIdx_sublist s k) hs

theorem remoteDelete_state_cases (s : List CRDTChar) (p : List Nat) (sid : String) :
    (remoteDelete s p sid).1 = s ∨ ∃ k, (remoteDelete s p sid).1 = s.eraseIdx k := by
  unfold remoteDelete
  rcases hb : bsDel s p sid (s.length + 1) 0 ((s.length : Int) - 1) with _ | mid
  · rcases hf : findIdxP (matchB p sid) s with _ | idx
    · exact Or.inl rfl
    · exact Or.inr ⟨idx, rfl⟩
  · exact Or.inr ⟨mid, rfl⟩

theorem inv_remoteDelete {s : List CRDTChar} (hs : Inv s) (p : List Nat)
    (sid : String) : Inv (remoteDelete s p sid).1 := by
  rcases remoteDelete_state_cases s p sid with h | ⟨k, h⟩
  · rw [h]; exact hs
  · rw [h]; exact inv_eraseIdx hs k

theorem inv_remoteInsert {s : List CRDTChar} (hs : Inv s) (e : CRDTChar) :
    Inv (remoteInsert s e).1 := by
  rw [remoteInsert_sorted_eq (inv_sle hs)]
  exact sInsert_inv hs

theorem getAt?_some {s : List CRDTChar} {i : Int} {c : CRDTChar}
    (h : getAt? s i = some c) :
    0 ≤ i ∧ i.toNat < s.length ∧ c = s.getD i.toNat dummyChar := by
  unfold getAt? at h
  by_cases hc : 0 ≤ i ∧ i.toNat < s.length
  · rw [if_pos hc] at h
    exact ⟨hc.1, hc.2, (Option.some.injEq ..).mp h.symm⟩
  · rw [if_neg hc] at h
    simp at h

/-- Claim C3 (amended): every engine operation preserves the strict
invariant (sorted ascending and duplicate-key-free); `loadState` of an
arbitrary snapshot always yields a sorted sequence, and a duplicate-free
one provided the snapshot has pairwise-distinct keys. -/
theorem engine_invariant (s : List CRDTChar) (hs : Inv s) :
    (∀ site i v a, Inv (localInsert site s i v a).1) ∧
    (∀ i, Inv (localDelete s i).1) ∧
    (∀ i j, Inv (localBatchDelete s i j).1) ∧
    (∀ i patch, Inv (localFormat s i patch).1) ∧
    (∀ e, Inv (remoteInsert s e).1) ∧
    (∀ p sid, Inv (remoteDelete s p sid).1) ∧
    (∀ ops, Inv (batchRemoteDelete s ops).1) ∧
    (∀ p sid patch, Inv (remoteFormat s p sid patch)) ∧
    (∀ input : List CRDTChar, Sle (loadState input) ∧
       (KeyNodup input → Inv (loadState input))) := by
  refine ⟨?_, ?_, ?_, ?_, fun e => inv_remoteInsert hs e,
    fun p sid => inv_remoteDelete hs p sid, ?_, ?_,
    fun input => ⟨loadState_sle input, fun h => loadState_inv h⟩⟩
  · intro site i v a
    exact inv_remoteInsert hs _
  · intro i
    unfold localDelete
    rcases h : getAt? s i with _ | c
    · exact hs
    · exact inv_remoteDelete hs _ _
  · intro i j
    unfold localBatchDelete
    by_cases hrange : i < 0 ∨ j > (s.length : Int) ∨ i ≥ j
    · rw [if_pos hrange]
      exact hs
    · rw [if_neg hrange]
      push_neg at hrange
      have hab : i.toNat ≤ j.toNat := by omega
      have h1 : List.Sublist (s.drop j.toNat) (s.drop i.toNat) := by
        rw [show j.toNat = i.toNat + (j.toNat - i.toNat) from by omega,
          ← List.drop_drop]
        exact List.drop_sublist _ _
      have h2 : List.Sublist (s.take i.toNat ++ s.drop j.toNat)
          (s.take i.toNat ++ s.drop i.toNat) :=
        List.Sublist.append_left h1 _
      rw [List.take_append_drop] at h2
      exact List.Pairwise.sublist h2 hs
  · intro i patch
    unfold localFormat
    rcases h : getAt? s i with _ | c
    · exact hs
    · obtain ⟨h0, h1, h2⟩ := getAt?_some h
      apply inv_set_key_eq hs
      rw [h2]
      rfl
  · intro ops
    rw [batch_eq_filter]
    exact List.Pairwise.filter _ hs
  · intro p sid patch
    unfold remoteFormat
    rcases h : findIdxP (matchB p sid) s with _ | j
    · exact hs
    · exact inv_set_key_eq hs j rfl

/-- Counterexample to claim C3 as stated: `loadState` of a snapshot
holding the same element twice keeps both copies, so two live elements
share an identical (identifier, site) key. -/
theorem engine_invariant_cex :
    loadState [⟨"x", [1], "S", none⟩, ⟨"x", [1], "S", none⟩] =
      [⟨"x", [1], "S", none⟩, ⟨"x", [1], "S", none⟩] ∧
    ¬ KeyNodup (loadState [⟨"x", [1], "S", none⟩, ⟨"x", [1], "S", none⟩]) := by
  decide

/-- Concrete witness for the amended C3 theorem. -/
theorem engine_invariant_witness :
    Inv [⟨"a", [10], "S", none⟩, ⟨"b", [20], "S", none⟩] ∧
    Inv (remoteInsert [⟨"a", [10], "S", none⟩, ⟨"b", [20], "S", none⟩]
      ⟨"c", [15], "T", none⟩).1 :=
  ⟨by decide, (engine_invariant _ (by decide)).2.2.2.2.1 ⟨"c", [15], "T", none⟩⟩

/-! ## Claim C8 -/

/-- Two strictly sorted sequences with the same members are equal. -/
theorem inv_eq_of_mem_iff :
    ∀ {A B : List CRDTChar}, Inv A → Inv B → (∀ x, x ∈ A ↔ x ∈ B) → A = B := by
  intro A
  induction A with
  | nil =>
    intro B _ _ h
    cases B with
    | nil => rfl
    | cons b B' => exact absurd ((h b).mpr (by simp)) (by simp)
  | cons a A' ih =>
    intro B hA hB h
    cases B with
    | nil => exact absurd ((h a).mp (by simp)) (by simp)
    | cons b B' =>
      have hA' := List.pairwise_cons.mp hA
      have hB' := List.pairwise_cons.mp hB
      have hab : a = b := by
        by_contra hne
        have ha : a ∈ B' := by
          rcases List.mem_cons.mp ((h a).mp (by simp)) with h1 | h1
          · exact absurd h1 hne
          · exact h1
        have hb : b ∈ A' := by
          rcases List.mem_cons.mp ((h b).mpr (by simp)) with h1 | h1
          · exact absurd h1.symm hne
          · exact h1
        have h1 : comparePositions a b = .lt := hA'.1 b hb
        have h2 : comparePositions b a = .lt := hB'.1 a ha
        have h3 : comparePositions a b = .gt := cp_gt_iff_lt.mpr h2
        rw [h1] at h3
        exact absurd h3 (by simp)
      subst hab
      congr 1
      apply ih hA'.2 hB'.2
      intro x
      constructor
      · intro hx
        rcases List.mem_cons.mp ((h x).mp (List.mem_cons_of_mem _ hx)) with h1 | h1
        · subst h1
          exact absurd (hA'.1 x hx) (by rw [cp_refl]; simp)
        · exact h1
      · intro hx
        rcases List.mem_cons.mp ((h x).mpr (List.mem_cons_of_mem _ hx)) with h1 | h1
        · subst h1
          exact absurd (hB'.1 x hx) (by rw [cp_refl]; simp)
        · exact h1

/-- Claim C8 (amended): `loadState(engine.state)` reproduces the exact
sequence (hence identical text and per-character attributes) on every
invariant-satisfying state; and on snapshots with pairwise-distinct
keys the result of `loadState` is independent of the order of the
snapshot's elements. -/
theorem loadState_roundtrip (s s1 s2 : List CRDTChar) (hs : Inv s)
    (hperm : s1.Perm s2) (hnd : KeyNodup s1) :
    loadState (stateGet s) = s ∧
    loadState s1 = loadState s2 ∧
    textOf (loadState s1) = textOf (loadState s2) := by
  have hmain : loadState s1 = loadState s2 := by
    apply inv_eq_of_mem_iff (loadState_inv hnd)
      (loadState_inv (keyNodup_perm hperm hnd))
    intro x
    rw [(loadState_perm s1).mem_iff, (loadState_perm s2).mem_iff]
    exact hperm.mem_iff
  refine ⟨?_, hmain, by rw [hmain]⟩
  apply inv_eq_of_mem_iff (loadState_inv (inv_keyNodup hs)) hs
  intro x
  exact (loadState_perm s).mem_iff

/-- Counterexample to the universal order-independence in claim C8:
two elements sharing one key but holding different values; the stable
sort keeps the snapshot order, so the resulting text depends on the
order of the snapshot. -/
theorem loadState_roundtrip_cex :
    List.Perm [⟨"a", [1], "S", none⟩, ⟨"b", [1], "S", none⟩]
      ([⟨"b", [1], "S", none⟩, ⟨"a", [1], "S", none⟩] : List CRDTChar) ∧
    textOf (loadState [⟨"a", [1], "S", none⟩, ⟨"b", [1], "S", none⟩]) = "ab" ∧
    textOf (loadState [⟨"b", [1], "S", none⟩, ⟨"a", [1], "S", none⟩]) = "ba" :=
  ⟨List.Perm.swap _ _ _, by decide, by decide⟩

/-- Concrete witness for the amended C8 theorem. -/
theorem loadState_roundtrip_witness :
    Inv [⟨"a", [1], "S", none⟩] ∧
    KeyNodup [⟨"a", [1], "S", none⟩] ∧
    loadState (stateGet [⟨"a", [1], "S", none⟩]) = [⟨"a", [1], "S", none⟩] :=
  ⟨by decide, by decide,
   (loadState_roundtrip [⟨"a", [1], "S", none⟩] [⟨"a", [1], "S", none⟩]
     [⟨"a", [1], "S", none⟩] (by decide) (List.Perm.refl _) (by decide)).1⟩

/-! ## Claim C1 -/

/-- Apply a delivery sequence of inserts starting from the empty
sequence. -/
def applyInserts (l : List CRDTChar) : List CRDTChar :=
  l.foldl (fun t c => (remoteInsert t c).1) []

theorem applyInserts_fold :
    ∀ (l : List CRDTChar) (s : List CRDTChar), Inv s →
      (∀ a, (a ∈ s ∨ a ∈ l) → ∀ b, (b ∈ s ∨ b ∈ l) →
        comparePositions a b = .eq → a = b) →
      Inv (l.foldl (fun t c => (remoteInsert t c).1) s) ∧
      (∀ x, x ∈ l.foldl (fun t c => (remoteInsert t c).1) s ↔ x ∈ s ∨ x ∈ l) := by
  intro l
  induction l with
  | nil =>
    intro s hs _
    exact ⟨hs, by simp⟩
  | cons e l ih =>
    intro s hs hinj
    rw [List.foldl_cons]
    have hstep : (remoteInsert s e).1 = sInsert e s :=
      remoteInsert_sorted_eq (inv_sle hs)
    rw [hstep]
    have hs' : Inv (sInsert e s) := sInsert_inv hs
    have hmem : ∀ x, x ∈ sInsert e s ↔ x = e ∨ x ∈ s := by
      by_cases hk : hasKey s e
      · obtain ⟨w, hw, hweq⟩ := hk
        have hwe : w = e := hinj w (Or.inl hw) e (Or.inr (by simp)) hweq
        subst hwe
        rw [sInsert_hasKey_eq (inv_sle hs) ⟨w, hw, hweq⟩]
        intro x
        constructor
        · intro hx; exact Or.inr hx
        · intro hx
          rcases hx with rfl | hx
          · exact hw
          · exact hx
      · intro x
        constructor
        · exact sInsert_mem_of
        · intro hx
          rcases hx with rfl | hx
          · exact mem_sInsert_self hk
          · exact mem_sInsert_of_mem hx
    have hinj' : ∀ a, (a ∈ sInsert e s ∨ a ∈ l) → ∀ b, (b ∈ sInsert e s ∨ b ∈ l) →
        comparePositions a b = .eq → a = b := by
      intro a ha b hb
      apply hinj
      · rcases ha with ha | ha
        · rcases (hmem a).mp ha with rfl | h1
          · exact Or.inr (by simp)
          · exact Or.inl h1
        · exact Or.inr (List.mem_cons_of_mem _ ha)
      · rcases hb with hb | hb
        · rcases (hmem b).mp hb with rfl | h1
          · exact Or.inr (by simp)
          · exact Or.inl h1
        · exact Or.inr (List.mem_cons_of_mem _ hb)
    obtain ⟨h1, h2⟩ := ih (sInsert e s) hs' hinj'
    refine ⟨h1, ?_⟩
    intro x
    rw [h2 x, hmem x]
    simp only [List.mem_cons]
    tauto

/-- Claim C1 (amended): convergence holds for insert-only operation
multisets with pairwise-distinct keys: two engines starting empty,
each applying a delivery sequence that contains exactly the inserts of
the multiset (in any order, each delivered one or more times), reach
identical sequences — identical text and identical per-character
attributes. -/
theorem convergence_inserts (l1 l2 : List CRDTChar)
    (hmem : ∀ x, x ∈ l1 ↔ x ∈ l2)
    (hinj : ∀ a, a ∈ l1 → ∀ b, b ∈ l1 → comparePositions a b = .eq → a = b) :
    applyInserts l1 = applyInserts l2 ∧
    textOf (applyInserts l1) = textOf (applyInserts l2) ∧
    (applyInserts l1).map CRDTChar.attributes =
      (applyInserts l2).map CRDTChar.attributes := by
  have hinj2 : ∀ a, a ∈ l2 → ∀ b, b ∈ l2 → comparePositions a b = .eq → a = b := by
    intro a ha b hb
    exact hinj a ((hmem a).mpr ha) b ((hmem b).mpr hb)
  have h1 := applyInserts_fold l1 [] List.Pairwise.nil
    (by
      intro a ha b hb
      rcases ha with ha | ha
      · simp at ha
      · rcases hb with hb | hb
        · simp at hb
        · exact hinj a ha b hb)
  have h2 := applyInserts_fold l2 [] List.Pairwise.nil
    (by
      intro a ha b hb
      rcases ha with ha | ha
      · simp at ha
      · rcases hb with hb | hb
        · simp at hb
        · exact hinj2 a ha b hb)
  have hmain : applyInserts l1 = applyInserts l2 := by
    apply inv_eq_of_mem_iff h1.1 h2.1
    intro x
    rw [h1.2 x, h2.2 x]
    simp [hmem x]
  exact ⟨hmain, by rw [hmain], by rw [hmain]⟩

/-- A remote engine operation as delivered off the wire. -/
inductive EngineOp where
  | ins (char : CRDTChar)
  | del (position : List Nat) (siteId : String)
  | fmt (position : List Nat) (charSiteId : String) (attributes : CRDTAttributes)
deriving DecidableEq, Repr

/-- Apply one remote operation to a sequence. -/
def applyOp (s : List CRDTChar) : EngineOp → List CRDTChar
  | .ins c => (remoteInsert s c).1
  | .del p sid => (remoteDelete s p sid).1
  | .fmt p sid a => remoteFormat s p sid a

/-- Apply a delivery sequence starting from the empty sequence. -/
def applyOps (l : List EngineOp) : List CRDTChar :=
  l.foldl applyOp []

/-- Counterexample to claim C1 as stated: the same two-element
operation multiset (an insert and the delete of its key), delivered
exactly once each in the two possible orders, yields different texts —
the replica receiving the delete first drops it (deletions are
physical, keys unseen are ignored) and ends with "x", the other ends
empty. -/
theorem convergence_cex :
    List.Perm [EngineOp.ins ⟨"x", [5], "A", none⟩, EngineOp.del [5] "A"]
      [EngineOp.del [5] "A", EngineOp.ins ⟨"x", [5], "A", none⟩] ∧
    textOf (applyOps [EngineOp.ins ⟨"x", [5], "A", none⟩, EngineOp.del [5] "A"]) = "" ∧
    textOf (applyOps [EngineOp.del [5] "A", EngineOp.ins ⟨"x", [5], "A", none⟩]) = "x" :=
  ⟨List.Perm.swap _ _ _, by decide, by decide⟩

/-- Concrete witness for the amended C1 theorem: the same two inserts
in different orders, one redelivered. -/
theorem convergence_inserts_witness :
    applyInserts [⟨"a", [1], "S", none⟩, ⟨"b", [2], "S", none⟩] =
      applyInserts [⟨"b", [2], "S", none⟩, ⟨"a", [1], "S", none⟩,
        ⟨"b", [2], "S", none⟩] :=
  (convergence_inserts _ _ (by intro x; simp only [List.mem_cons]; tauto)
    (by decide)).1

/-! ## Claim C9 -/

theorem getAt?_neg {s : List CRDTChar} {i : Int}
    (h : ¬(0 ≤ i ∧ i.toNat < s.length)) : getAt? s i = none := by
  unfold getAt?
  rw [if_neg h]

theorem getAt?_pos {s : List CRDTChar} {i : Int} (h1 : 0 ≤ i)
    (h2 : i.toNat < s.length) :
    getAt? s i = some (s.getD i.toNat dummyChar) := by
  unfold getAt?
  rw [if_pos ⟨h1, h2⟩]

/-- Claim C9 (amended): `localInsert` does not clamp its index.  For
every index outside `[0, length]` both neighbour lookups miss the
array, default to the sentinels `[0]` and `[100]`, and the new element
gets identifier `generateIdentifierBetween [0] [100] = [50]`.  For an
index inside `[0, length]` the identifier is allocated between the
neighbours at `index - 1` and `index` (sentinels at the two ends).  In
every case the element is handed to `remoteInsert` (spliced at its
sorted position) and returned with the given value, site, and
attributes. -/
theorem localInsert_spec (site : String) (s : List CRDTChar) (index : Int)
    (v : String) (a : Option CRDTAttributes) :
    ((index < 0 ∨ (s.length : Int) < index) →
       (localInsert site s index v a).2.position = [50]) ∧
    (0 ≤ index → index ≤ (s.length : Int) →
       (localInsert site s index v a).2.position =
         generateIdentifierBetween
           (if index = 0 then [0]
            else (s.getD (index - 1).toNat dummyChar).position)
           (if index = (s.length : Int) then [100]
            else (s.getD index.toNat dummyChar).position)) ∧
    (localInsert site s index v a).1 =
      (remoteInsert s (localInsert site s index v a).2).1 ∧
    (localInsert site s index v a).2.value = v ∧
    (localInsert site s index v a).2.siteId = site ∧
    (localInsert site s index v a).2.attributes = a := by
  refine ⟨?_, ?_, rfl, rfl, rfl, rfl⟩
  · intro hout
    show generateIdentifierBetween
        (((getAt? s (index - 1)).map CRDTChar.position).getD [0])
        (((getAt? s index).map CRDTChar.position).getD [100]) = [50]
    rw [getAt?_neg (by omega), getAt?_neg (by omega)]
    decide
  · intro h0 hlen
    show generateIdentifierBetween
        (((getAt? s (index - 1)).map CRDTChar.position).getD [0])
        (((getAt? s index).map CRDTChar.position).getD [100]) =
      generateIdentifierBetween
        (if index = 0 then [0]
         else (s.getD (index - 1).toNat dummyChar).position)
        (if index = (s.length : Int) then [100]
         else (s.getD index.toNat dummyChar).position)
    congr 1
    · by_cases hz : index = 0
      · rw [if_pos hz, getAt?_neg (by omega)]
        rfl
      · rw [if_neg hz, getAt?_pos (by omega) (by omega)]
        rfl
    · by_cases hl : index = (s.length : Int)
      · rw [if_pos hl, getAt?_neg (by omega)]
        rfl
      · rw [if_neg hl, getAt?_pos (by omega) (by omega)]
        rfl

/-- Counterexample to claim C9 as stated: on the one-element state at
position `[60]`, `localInsert` with index `-1` allocates between the
sentinels `[0]` and `[100]` giving `[50]`, while the clamped call at
index `0` allocates between `[0]` and `[60]` giving `[30]` — the two
calls do not behave alike. -/
theorem localInsert_spec_cex :
    (localInsert "S" [⟨"a", [60], "S", none⟩] (-1) "x" none).2.position = [50] ∧
    (localInsert "S" [⟨"a", [60], "S", none⟩] 0 "x" none).2.position = [30] ∧
    localInsert "S" [⟨"a", [60], "S", none⟩] (-1) "x" none ≠
      localInsert "S" [⟨"a", [60], "S", none⟩] 0 "x" none := by
  decide

/-- Concrete witness for the amended C9 theorem. -/
theorem localInsert_spec_witness :
    ((-2 : Int) < 0 ∨ ((([] : List CRDTChar).length : Int) < -2)) ∧
    (localInsert "S" [] (-2) "x" none).2.position = [50] :=
  ⟨Or.inl (by decide),
   (localInsert_spec "S" [] (-2) "x" none).1 (Or.inl (by decide))⟩

/-! ## Claim C10 -/

/-- The attribute set of an element; an absent attribute object denotes
the all-unset set. -/
def attrsOf (c : CRDTChar) : CRDTAttributes := c.attributes.getD emptyAttrs

/-- The per-key frame condition of one attribute merge: keys present in
the patch take the patch value; keys absent from the patch keep their
old value. -/
def AttrFrame (o n p : CRDTAttributes) : Prop :=
  (p.bold = none → n.bold = o.bold) ∧ (p.bold ≠ none → n.bold = p.bold) ∧
  (p.italic = none → n.italic = o.italic) ∧ (p.italic ≠ none → n.italic = p.italic) ∧
  (p.underline = none → n.underline = o.underline) ∧
  (p.underline ≠ none → n.underline = p.underline) ∧
  (p.fontSize = none → n.fontSize = o.fontSize) ∧
  (p.fontSize ≠ none → n.fontSize = p.fontSize) ∧
  (p.fontFamily = none → n.fontFamily = o.fontFamily) ∧
  (p.fontFamily ≠ none → n.fontFamily = p.fontFamily)

instance (o n p : CRDTAttributes) : Decidable (AttrFrame o n p) := by
  unfold AttrFrame; infer_instance

theorem mergeAttrs_frame (old : Option CRDTAttributes) (p : CRDTAttributes) :
    AttrFrame (old.getD emptyAttrs) (mergeAttrs old p) p := by
  refine ⟨fun h => ?_, fun h => ?_, fun h => ?_, fun h => ?_, fun h => ?_,
    fun h => ?_, fun h => ?_, fun h => ?_, fun h => ?_, fun h => ?_⟩
  · simp [mergeAttrs, oor, h]
  · rcases hv : p.bold with _ | v
    · exact absurd hv h
    · simp [mergeAttrs, oor, hv]
  · simp [mergeAttrs, oor, h]
  · rcases hv : p.italic with _ | v
    · exact absurd hv h
    · simp [mergeAttrs, oor, hv]
  · simp [mergeAttrs, oor, h]
  · rcases hv : p.underline with _ | v
    · exact absurd hv h
    · simp [mergeAttrs, oor, hv]
  · simp [mergeAttrs, oor, h]
  · rcases hv : p.fontSize with _ | v
    · exact absurd hv h
    · simp [mergeAttrs, oor, hv]
  · simp [mergeAttrs, oor, h]
  · rcases hv : p.fontFamily with _ | v
    · exact absurd hv h
    · simp [mergeAttrs, oor, hv]

theorem getD_set_ne (d : CRDTChar) {s : List CRDTChar} {j k : Nat} (h : j ≠ k)
    (c' : CRDTChar) : (s.set j c').getD k d = s.getD k d := by
  by_cases hk : k < s.length
  · rw [List.getD_eq_getElem _ _ (by simpa using hk), List.getD_eq_getElem _ _ hk]
    rw [List.getElem_set, if_neg h]
  · rw [List.getD_eq_default _ _ (by simpa using Nat.le_of_not_lt hk),
      List.getD_eq_default _ _ (Nat.le_of_not_lt hk)]

theorem getD_set_eq (d : CRDTChar) {s : List CRDTChar} {j : Nat} (hj : j < s.length)
    (c' : CRDTChar) : (s.set j c').getD j d = c' := by
  rw [List.getD_eq_getElem _ _ (by simpa using hj)]
  rw [List.getElem_set, if_pos rfl]

theorem getAt?_none_iff {s : List CRDTChar} {i : Int} :
    getAt? s i = none ↔ ¬(0 ≤ i ∧ i.toNat < s.length) := by
  unfold getAt?
  by_cases h : 0 ≤ i ∧ i.toNat < s.length
  · rw [if_pos h]; simp [h]
  · rw [if_neg h]; simp [h]

/-- Claim C10: `localFormat` and `remoteFormat` modify at most the
attribute set of the single addressed element, change only the
attribute keys present in the patch, and leave the element's value,
identifier, and site as well as every other element, the length, and
the order of the sequence unchanged. -/
theorem format_frame (s : List CRDTChar) (i : Int) (patch : CRDTAttributes)
    (p : List Nat) (sid : String) :
    (localFormat s i patch).1.length = s.length ∧
    (¬(0 ≤ i ∧ i.toNat < s.length) → (localFormat s i patch).1 = s) ∧
    (∀ j : Nat, j < s.length → (0 ≤ i → i.toNat ≠ j) →
       (localFormat s i patch).1.getD j dummyChar = s.getD j dummyChar) ∧
    (0 ≤ i → i.toNat < s.length →
       ((localFormat s i patch).1.getD i.toNat dummyChar).value =
         (s.getD i.toNat dummyChar).value ∧
       ((localFormat s i patch).1.getD i.toNat dummyChar).position =
         (s.getD i.toNat dummyChar).position ∧
       ((localFormat s i patch).1.getD i.toNat dummyChar).siteId =
         (s.getD i.toNat dummyChar).siteId ∧
       AttrFrame (attrsOf (s.getD i.toNat dummyChar))
         (attrsOf ((localFormat s i patch).1.getD i.toNat dummyChar)) patch) ∧
    (remoteFormat s p sid patch).length = s.length ∧
    (findIdxP (matchB p sid) s = none → remoteFormat s p sid patch = s) ∧
    (∀ j, findIdxP (matchB p sid) s = some j →
       (∀ k, k < s.length → k ≠ j →
          (remoteFormat s p sid patch).getD k dummyChar = s.getD k dummyChar) ∧
       ((remoteFormat s p sid patch).getD j dummyChar).value =
         (s.getD j dummyChar).value ∧
       ((remoteFormat s p sid patch).getD j dummyChar).position =
         (s.getD j dummyChar).position ∧
       ((remoteFormat s p sid patch).getD j dummyChar).siteId =
         (s.getD j dummyChar).siteId ∧
       AttrFrame (attrsOf (s.getD j dummyChar))
         (attrsOf ((remoteFormat s p sid patch).getD j dummyChar)) patch) := by
  constructor
  · unfold localFormat
    rcases h : getAt? s i with _ | c
    · rfl
    · obtain ⟨h0, h1, h2⟩ := getAt?_some h
      exact List.length_set ..
  constructor
  · intro hout
    unfold localFormat
    rcases h : getAt? s i with _ | c
    · rfl
    · exact absurd ⟨(getAt?_some h).1, (getAt?_some h).2.1⟩ hout
  constructor
  · intro j hj hij
    unfold localFormat
    rcases h : getAt? s i with _ | c
    · rfl
    · obtain ⟨h0, h1, h2⟩ := getAt?_some h
      exact getD_set_ne dummyChar (hij h0) _
  constructor
  · intro h0 h1
    have h : getAt? s i = some (s.getD i.toNat dummyChar) := getAt?_pos h0 h1
    unfold localFormat
    rw [h]
    rw [getD_set_eq dummyChar h1]
    refine ⟨rfl, rfl, rfl, ?_⟩
    show AttrFrame (attrsOf (s.getD i.toNat dummyChar))
      ((some (mergeAttrs (s.getD i.toNat dummyChar).attributes patch)).getD emptyAttrs)
      patch
    exact mergeAttrs_frame _ _
  constructor
  · unfold remoteFormat
    rcases h : findIdxP (matchB p sid) s with _ | j
    · rfl
    · exact List.length_set ..
  constructor
  · intro h
    unfold remoteFormat
    rw [h]
  · intro j hj
    have hlen : j < s.length := (findIdxP_some dummyChar hj).1
    unfold remoteFormat
    rw [hj]
    refine ⟨?_, ?_⟩
    · intro k hk hkj
      exact getD_set_ne dummyChar (fun hc => hkj hc.symm) _
    · rw [getD_set_eq dummyChar hlen]
      exact ⟨rfl, rfl, rfl, mergeAttrs_frame _ _⟩

/-- Concrete witness for the C10 theorem: bolding the first of two
characters. -/
theorem format_frame_witness :
    ((localFormat [⟨"a", [1], "S", none⟩, ⟨"b", [2], "S", none⟩] 0
        ⟨some true, none, none, none, none⟩).1.getD 1 dummyChar =
      (⟨"b", [2], "S", none⟩ : CRDTChar)) ∧
    AttrFrame (attrsOf (⟨"a", [1], "S", none⟩ : CRDTChar))
      (attrsOf ((localFormat [⟨"a", [1], "S", none⟩, ⟨"b", [2], "S", none⟩] 0
        ⟨some true, none, none, none, none⟩).1.getD 0 dummyChar))
      ⟨some true, none, none, none, none⟩ :=
  ⟨(format_frame [⟨"a", [1], "S", none⟩, ⟨"b", [2], "S", none⟩] 0
      ⟨some true, none, none, none, none⟩ [] "").2.2.1 1 (by decide) (by decide),
   (format_frame [⟨"a", [1], "S", none⟩, ⟨"b", [2], "S", none⟩] 0
      ⟨some true, none, none, none, none⟩ [] "").2.2.2.1 (by decide) (by decide) |>.2.2.2⟩

/-! ## Claim C7: the editor undo stack -/

/-- One entry of an editor undo batch: an inserted element, a deleted
element, or a format step recording the element key and the attribute
snapshot `{ ...(char.attributes || {}) }` taken before the merge. -/
inductive UndoEntry where
  | ins (char : CRDTChar)
  | del (char : CRDTChar)
  | fmt (position : List Nat) (charSiteId : String) (prevAttributes : CRDTAttributes)
deriving DecidableEq, Repr

/-- Editor state: the engine sequence plus the two history stacks
(stack top at the list head; `push`/`pop` act there, `shift` drops the
oldest entry at the tail). -/
structure EditorState where
  chars : List CRDTChar
  undoStack : List (List UndoEntry)
  redoStack : List (List UndoEntry)
deriving DecidableEq, Repr

/-- `pushToUndo` from the source: skip empty batches, push and cap the
stack at 100 batches, clear the redo stack. -/
def pushToUndo (st : EditorState) (batch : List UndoEntry) : EditorState :=
  if batch = [] then st
  else { st with undoStack := (batch :: st.undoStack).take 100, redoStack := [] }

/-- The attributes of the live element with a given key: an undo batch
entry holds a reference to the element object, so reading
`entry.char.attributes` at undo time sees the attributes the element
carries then, which for a live element is this lookup. -/
def liveAttrs (s : List CRDTChar) (p : List Nat) (sid : String) : CRDTAttributes :=
  match findIdxP (matchB p sid) s with
  | some j => ((s.getD j dummyChar).attributes).getD emptyAttrs
  | none => emptyAttrs

/-- The loop of `applyToSelection`: for `i` from `start` while
`i < end` and `i < length`, snapshot the element attributes, apply
`localFormat i patch`, and record a format undo entry (fuel is the
remaining iteration count `end - i`). -/
def formatRange : Nat → List CRDTChar → Nat → CRDTAttributes →
    List CRDTChar × List UndoEntry
  | 0, s, _, _ => (s, [])
  | fuel + 1, s, i, patch =>
    if i < s.length then
      let c := s.getD i dummyChar
      let oldAttrs := (c.attributes).getD emptyAttrs
      let s' := (localFormat s (i : Int) patch).1
      let r := formatRange fuel s' (i + 1) patch
      (r.1, UndoEntry.fmt c.position c.siteId oldAttrs :: r.2)
    else (s, [])

/-- `applyToSelection` from the source, over the logical selection
`[start, stop)`: format each selected element and push the recorded
batch onto the undo stack. -/
def applyToSelection (st : EditorState) (start stop : Nat)
    (patch : CRDTAttributes) : EditorState :=
  let r := formatRange (stop - start) st.chars start patch
  pushToUndo { st with chars := r.1 } r.2

/-- One step of `handleUndo`: invert an entry against the sequence and
produce the corresponding redo entry (a format entry snapshots the live
attributes before replaying `prevAttributes` as a merge patch through
`remoteFormat`). -/
def undoEntryApply (s : List CRDTChar) : UndoEntry → List CRDTChar × UndoEntry
  | .ins c => ((remoteDelete s c.position c.siteId).1, .ins c)
  | .del c => ((remoteInsert s c).1, .del c)
  | .fmt p sid prev =>
    let current := liveAttrs s p sid
    (remoteFormat s p sid prev, .fmt p sid current)

/-- The backwards loop of `handleUndo`: entries are processed from the
last to the first, each redo entry unshifted to the front of the redo
batch. -/
def undoRun (s : List CRDTChar) : List UndoEntry → List CRDTChar × List UndoEntry
  | [] => (s, [])
  | e :: rest =>
    let r := undoRun s rest
    let r' := undoEntryApply r.1 e
    (r'.1, r'.2 :: r.2)

/-- `handleUndo` from the source: pop the newest batch, invert it
backwards, push the redo batch. -/
def handleUndo (st : EditorState) : EditorState :=
  match st.undoStack with
  | [] => st
  | batch :: rest =>
    let r := undoRun st.chars batch
    { chars := r.1, undoStack := rest, redoStack := r.2 :: st.redoStack }

/-- Claim C7 (refuted, code bug): undo is not an inverse of a local
format. Formatting the single unformatted character `"a"` with
`bold := true` and then undoing replays the empty pre-format attribute
snapshot as a merge patch through `remoteFormat`; a shallow merge
cannot remove the `bold` key, so the text is restored but the
attribute set keeps `bold = true` instead of returning to empty. -/
theorem undo_format_not_inverse :
    (let st0 : EditorState := ⟨[⟨"a", [10], "S", none⟩], [], []⟩
     let st2 := handleUndo (applyToSelection st0 0 1
       ⟨some true, none, none, none, none⟩)
     textOf st2.chars = textOf st0.chars ∧
       attrsOf (st2.chars.getD 0 dummyChar) ≠
         attrsOf (st0.chars.getD 0 dummyChar)) := by
  refine ⟨rfl, ?_⟩
  decide

end CollabCore
